import Mathlib

/-!
# go-screen-manager: the client distribution service

A shallow embedding of `client_manager/tcp_server.go` and of the parts of
`models/models.go` it serialises, followed by the properties proved about it.

Conventions of the embedding

* The identifier of a screen and the text that goes over the wire are Lean `String`s;
  `len` is the number of bytes of the UTF-8 encoding.  The string fields of the
  stored records are byte strings (`GoString`), which need not be valid UTF-8; what
  `json.Marshal` makes of them always is.
* A slice is an optional list: the nil slice and the empty slice are told apart.
* A `net.Conn` is identified by a number; two connections are `==` exactly when
  the numbers agree.
* `sync.Mutex` is a boolean, `true` while some goroutine holds it.  `Lock` on a
  held mutex does not return; an operation that gets there yields `Run.blocked`.
* What the code does to sockets is recorded in the state: every `conn.Close()`
  and every `conn.Write(...)` call is appended to a log.
* What the outside world answers (the handshake read, the playlist query, the
  result of a write) is given by an `Env` of oracles.
* An update cycle, which the session loop starts as a goroutine every five seconds,
  runs to its end before the next one starts.
-/

/-! ## Strings -/

/-- The bytes of the UTF-8 encoding of one code point. -/
def utf8EncodeChar (c : Char) : List Nat :=
  let n := c.toNat
  if n < 0x80 then [n]
  else if n < 0x800 then [0xC0 + n / 64, 0x80 + n % 64]
  else if n < 0x10000 then [0xE0 + n / 4096, 0x80 + (n / 64) % 64, 0x80 + n % 64]
  else [0xF0 + n / 262144, 0x80 + (n / 4096) % 64, 0x80 + (n / 64) % 64, 0x80 + n % 64]

/-- The bytes of a text. -/
def utf8Encode (s : List Char) : List Nat := s.flatMap utf8EncodeChar

/-- Go `len(s)` for a string: its length in bytes. -/
def len (s : String) : Nat := s.utf8ByteSize

/-- Go `unicode.IsSpace`: the code points with the White_Space property. -/
def isSpace (c : Char) : Bool :=
  let n := c.toNat
  (0x09 ≤ n && n ≤ 0x0D) || n == 0x20 || n == 0x85 || n == 0xA0 || n == 0x1680 ||
  (0x2000 ≤ n && n ≤ 0x200A) || n == 0x2028 || n == 0x2029 || n == 0x202F ||
  n == 0x205F || n == 0x3000

/-- Go `strings.TrimSpace`: the string without its leading and trailing white space. -/
def TrimSpace (s : String) : String :=
  String.mk ((s.data.dropWhile isSpace).reverse.dropWhile isSpace).reverse

/-! ## Byte strings and `unicode/utf8` -/

/-- One byte. -/
abbrev Byte := Fin 256

/-- A Go `string` as it is stored: a sequence of bytes, which need not be valid UTF-8.
The string fields of the records are of this type. -/
abbrev GoString := List Byte

/-- The Go string with the UTF-8 bytes of a text. -/
def GoString.ofString (s : String) : GoString := (utf8Encode s.data).map fun n => Fin.ofNat n

namespace utf8

/-- The table `acceptRanges`: the least second byte that may follow the first byte. -/
def acceptLo (s0 : Nat) : Nat := if s0 = 0xE0 then 0xA0 else if s0 = 0xF0 then 0x90 else 0x80

/-- The table `acceptRanges`: the greatest second byte that may follow the first byte. -/
def acceptHi (s0 : Nat) : Nat := if s0 = 0xED then 0x9F else if s0 = 0xF4 then 0x8F else 0xBF

/-- The function `utf8.DecodeRuneInString` on the front of a byte string: the rune and
its width, or `none` with width 1 for `RuneError` at a byte that starts no valid
encoding (width 0 on the empty string). -/
def DecodeRune : List Byte → Option Char × Nat
  | [] => (none, 0)
  | s0 :: rest =>
    if s0.val < 0x80 then (some (Char.ofNat s0.val), 1)
    else if s0.val < 0xC2 ∨ 0xF4 < s0.val then (none, 1)
    else
      match rest with
      | [] => (none, 1)
      | s1 :: rest =>
        if s1.val < acceptLo s0.val ∨ acceptHi s0.val < s1.val then (none, 1)
        else if s0.val < 0xE0 then
          (some (Char.ofNat (s0.val % 32 * 64 + s1.val % 64)), 2)
        else
          match rest with
          | [] => (none, 1)
          | s2 :: rest =>
            if s2.val < 0x80 ∨ 0xBF < s2.val then (none, 1)
            else if s0.val < 0xF0 then
              (some (Char.ofNat (s0.val % 16 * 4096 + s1.val % 64 * 64 + s2.val % 64)), 3)
            else
              match rest with
              | [] => (none, 1)
              | s3 :: _ =>
                if s3.val < 0x80 ∨ 0xBF < s3.val then (none, 1)
                else
                  (some (Char.ofNat (s0.val % 8 * 262144 + s1.val % 64 * 4096 +
                    s2.val % 64 * 64 + s3.val % 64)), 4)

/-- The runes of a byte string as a `range` loop or `encoding/json` reads them, one
`DecodeRune` after the other; `none` stands for an invalid byte. -/
def decodeAux : Nat → List Byte → List (Option Char)
  | 0, _ => []
  | _ + 1, [] => []
  | fuel + 1, s0 :: rest =>
    (DecodeRune (s0 :: rest)).1 :: decodeAux fuel ((s0 :: rest).drop (DecodeRune (s0 :: rest)).2)

/-- The runes of a byte string. -/
def decode (s : GoString) : List (Option Char) := decodeAux s.length s

/-- The function `utf8.ValidString`. -/
def ValidString (s : GoString) : Bool := (decode s).all Option.isSome

/-- The UTF-8 bytes of a rune; nothing for an invalid byte. -/
def bytesOf : Option Char → List Byte
  | some c => (utf8EncodeChar c).map fun n => Fin.ofNat n
  | none => []

end utf8

/-! ## `models`: the records that are serialised -/

/-- Whether a character can occur in an RFC 3339 time stamp. -/
def isTimeChar (c : Char) : Bool :=
  c.isDigit || c == '-' || c == ':' || c == '.' || c == '+' || c == 'T' || c == 'Z'

/-- A `time.Time` value.  The program only ever serialises its time stamps, so
a value is given by what `Time.MarshalJSON` makes of it: the RFC 3339 text of an
instant, or `outOfRange` for an instant whose year is outside 0..9999, which
`MarshalJSON` refuses with an error. -/
inductive Time where
  | instant (text : List Char) (wf : text.all isTimeChar = true)
  | outOfRange
deriving DecidableEq

/-- The zero `time.Time`: January 1 of year 1, 00:00:00 UTC. -/
def Time.zero : Time := .instant "0001-01-01T00:00:00Z".data (by decide)

/-- The embedded `gorm.Model`: surrogate key and the time stamps kept by the storage
layer.  `DeletedAt` is a `gorm.DeletedAt`, a nullable time: `none` when not `Valid`. -/
structure Model where
  ID : Nat
  CreatedAt : Time
  UpdatedAt : Time
  DeletedAt : Option Time
deriving DecidableEq

/-- The model `Media`: a media file. -/
structure Media extends Model where
  Name : GoString
  Path : GoString
  /-- The field `Type` of the source; `Type` is reserved in Lean. -/
  Type_ : GoString
  PlaylistID : Nat
deriving DecidableEq

/-- A Go slice: `none` is the nil slice, `some []` an empty slice that is not nil. -/
abbrev Slice (α : Type) := Option (List α)

/-- The model `Playlist`: a named, ordered sequence of media items. -/
structure Playlist extends Model where
  Name : GoString
  Items : Slice Media
  ScreenID : Nat
deriving DecidableEq

/-- The zero value of `gorm.Model`. -/
def Model.zero : Model := ⟨0, Time.zero, Time.zero, none⟩

/-- The zero value `models.Playlist{}`. -/
def Playlist.zero : Playlist := { Model.zero with Name := [], Items := none, ScreenID := 0 }

/-! ## `encoding/json` on these records -/

namespace json

/-- One lower-case hexadecimal digit. -/
def hexDigit (n : Nat) : Char := "0123456789abcdef".data.getD n '0'

/-- Decimal digits of `n`, most significant first, in front of `acc`. -/
def digits : Nat → Nat → List Char → List Char
  | 0, _, acc => acc
  | fuel + 1, n, acc =>
    if n < 10 then hexDigit n :: acc
    else digits fuel (n / 10) (hexDigit (n % 10) :: acc)

/-- An unsigned integer as JSON: its decimal digits. -/
def encodeUint (n : Nat) : List Char := digits (n + 1) n []

/-- How one character of a string is written inside a JSON string literal
(`encoding/json` with HTML escaping, the default of `json.Marshal`; backspace and
form feed get their short forms, as the encoder writes them since Go 1.22). -/
def escapeChar (c : Char) : List Char :=
  if c = '"' then ['\\', '"']
  else if c = '\\' then ['\\', '\\']
  else if c.toNat = 0x08 then ['\\', 'b']
  else if c.toNat = 0x0C then ['\\', 'f']
  else if c = '\n' then ['\\', 'n']
  else if c = '\r' then ['\\', 'r']
  else if c = '\t' then ['\\', 't']
  else if c.toNat < 0x20 ∨ c = '<' ∨ c = '>' ∨ c = '&' ∨ c.toNat = 0x2028 ∨ c.toNat = 0x2029 then
    ['\\', 'u', hexDigit (c.toNat / 4096 % 16), hexDigit (c.toNat / 256 % 16),
      hexDigit (c.toNat / 16 % 16), hexDigit (c.toNat % 16)]
  else [c]

/-- How one rune of a Go string is written inside a JSON string literal: a byte that
belongs to no valid UTF-8 encoding is replaced by the six characters `\\ufffd`. -/
def escapeRune : Option Char → List Char
  | some c => escapeChar c
  | none => ['\\', 'u', 'f', 'f', 'f', 'd']

/-- A Go string as a JSON string literal: its runes, read one after the other as
`encoding/json` does, each escaped. -/
def encodeString (s : GoString) : List Char :=
  '"' :: (utf8.decode s).flatMap escapeRune ++ ['"']

end json

/-- The method `MarshalJSON` of `time.Time`: the quoted RFC 3339 text, or an error. -/
def Time.MarshalJSON : Time → Except String (List Char)
  | .instant text _ => .ok ('"' :: text ++ ['"'])
  | .outOfRange => .error "Time.MarshalJSON: year outside of range [0,9999]"

namespace json

/-- A `gorm.DeletedAt` as JSON: `null` unless valid. -/
def encodeDeletedAt : Option Time → Except String (List Char)
  | none => .ok "null".data
  | some t => t.MarshalJSON

/-- The members of the embedded `gorm.Model`, which encoding/json promotes into
the enclosing object. -/
def encodeModel (m : Model) : Except String (List Char) := do
  let created ← m.CreatedAt.MarshalJSON
  let updated ← m.UpdatedAt.MarshalJSON
  let deleted ← encodeDeletedAt m.DeletedAt
  pure ("\"ID\":".data ++ encodeUint m.ID ++ ",\"CreatedAt\":".data ++ created ++
    ",\"UpdatedAt\":".data ++ updated ++ ",\"DeletedAt\":".data ++ deleted)

/-- A `Media` as a JSON object. -/
def encodeMedia (m : Media) : Except String (List Char) := do
  let model ← encodeModel m.toModel
  pure ('{' :: model ++ ",\"Name\":".data ++ encodeString m.Name ++
    ",\"Path\":".data ++ encodeString m.Path ++ ",\"Type\":".data ++ encodeString m.Type_ ++
    ",\"PlaylistID\":".data ++ encodeUint m.PlaylistID ++ ['}'])

/-- The elements of a JSON array after the first one, and the closing bracket. -/
def encodeMore : List Media → Except String (List Char)
  | [] => .ok [']']
  | m :: ms => do
    let x ← encodeMedia m
    let xs ← encodeMore ms
    pure (',' :: x ++ xs)

/-- A slice of `Media` as a JSON array; the nil slice is written `null`. -/
def encodeItems : Slice Media → Except String (List Char)
  | none => .ok "null".data
  | some [] => .ok ['[', ']']
  | some (m :: ms) => do
    let x ← encodeMedia m
    let xs ← encodeMore ms
    pure ('[' :: x ++ xs)

/-- The call `json.Marshal(playlist)` for a `models.Playlist`: the JSON text, or the
error of the first time stamp that cannot be encoded. -/
def Marshal (p : Playlist) : Except String String := do
  let model ← encodeModel p.toModel
  let items ← encodeItems p.Items
  pure (String.mk ('{' :: model ++ ",\"Name\":".data ++ encodeString p.Name ++
    ",\"Items\":".data ++ items ++ ",\"ScreenID\":".data ++ encodeUint p.ScreenID ++ ['}']))

end json

/-! ## `crypto/md5` (RFC 1321) -/

namespace md5

/-- Two to the 32: the modulus of the word arithmetic. -/
def W : Nat := 4294967296

/-- Per-round left-rotation amounts. -/
def shifts : List Nat :=
  [7, 12, 17, 22, 7, 12, 17, 22, 7, 12, 17, 22, 7, 12, 17, 22,
   5, 9, 14, 20, 5, 9, 14, 20, 5, 9, 14, 20, 5, 9, 14, 20,
   4, 11, 16, 23, 4, 11, 16, 23, 4, 11, 16, 23, 4, 11, 16, 23,
   6, 10, 15, 21, 6, 10, 15, 21, 6, 10, 15, 21, 6, 10, 15, 21]

/-- The table of additive constants, the integer parts of the sines times `W`. -/
def sines : List Nat :=
  [0xd76aa478, 0xe8c7b756, 0x242070db, 0xc1bdceee, 0xf57c0faf, 0x4787c62a, 0xa8304613, 0xfd469501,
   0x698098d8, 0x8b44f7af, 0xffff5bb1, 0x895cd7be, 0x6b901122, 0xfd987193, 0xa679438e, 0x49b40821,
   0xf61e2562, 0xc040b340, 0x265e5a51, 0xe9b6c7aa, 0xd62f105d, 0x02441453, 0xd8a1e681, 0xe7d3fbc8,
   0x21e1cde6, 0xc33707d6, 0xf4d50d87, 0x455a14ed, 0xa9e3e905, 0xfcefa3f8, 0x676f02d9, 0x8d2a4c8a,
   0xfffa3942, 0x8771f681, 0x6d9d6122, 0xfde5380c, 0xa4beea44, 0x4bdecfa9, 0xf6bb4b60, 0xbebfbc70,
   0x289b7ec6, 0xeaa127fa, 0xd4ef3085, 0x04881d05, 0xd9d4d039, 0xe6db99e5, 0x1fa27cf8, 0xc4ac5665,
   0xf4292244, 0x432aff97, 0xab9423a7, 0xfc93a039, 0x655b59c3, 0x8f0ccc92, 0xffeff47d, 0x85845dd1,
   0x6fa87e4f, 0xfe2ce6e0, 0xa3014314, 0x4e0811a1, 0xf7537e82, 0xbd3af235, 0x2ad7d2bb, 0xeb86d391]

/-- Rotation of a 32-bit word to the left. -/
def rotl (x s : Nat) : Nat := ((x <<< s) ||| (x >>> (32 - s))) % W

/-- Bitwise complement of a 32-bit word. -/
def not32 (x : Nat) : Nat := x ^^^ (W - 1)

/-- The chaining value: four 32-bit words. -/
structure Digest where
  a : Nat
  b : Nat
  c : Nat
  d : Nat
deriving DecidableEq

/-- The initial chaining value. -/
def init : Digest := ⟨0x67452301, 0xefcdab89, 0x98badcfe, 0x10325476⟩

/-- Operation number `i` (0..63) on the block with words `M`. -/
def round (M : List Nat) (i : Nat) (st : Digest) : Digest :=
  let f :=
    if i < 16 then (st.b &&& st.c) ||| (not32 st.b &&& st.d)
    else if i < 32 then (st.d &&& st.b) ||| (not32 st.d &&& st.c)
    else if i < 48 then st.b ^^^ st.c ^^^ st.d
    else st.c ^^^ (st.b ||| not32 st.d)
  let g :=
    if i < 16 then i
    else if i < 32 then (5 * i + 1) % 16
    else if i < 48 then (3 * i + 5) % 16
    else (7 * i) % 16
  let x := (f + st.a + sines.getD i 0 + M.getD g 0) % W
  ⟨st.d, (st.b + rotl x (shifts.getD i 0)) % W, st.b, st.c⟩

/-- The little-endian word made of the first four bytes. -/
def word (bs : List Nat) : Nat :=
  bs.getD 0 0 + 256 * bs.getD 1 0 + 65536 * bs.getD 2 0 + 16777216 * bs.getD 3 0

/-- The first `n` little-endian words of a byte string. -/
def words : Nat → List Nat → List Nat
  | 0, _ => []
  | n + 1, bs => word bs :: words n (bs.drop 4)

/-- The compression function on one 64-byte block. -/
def block (st : Digest) (bs : List Nat) : Digest :=
  let M := words 16 bs
  let r := (List.range 64).foldl (fun s i => round M i s) st
  ⟨(st.a + r.a) % W, (st.b + r.b) % W, (st.c + r.c) % W, (st.d + r.d) % W⟩

/-- The compression function over `n` consecutive blocks. -/
def blocks : Nat → Digest → List Nat → Digest
  | 0, st, _ => st
  | n + 1, st, bs => blocks n (block st (bs.take 64)) (bs.drop 64)

/-- The eight little-endian bytes of a 64-bit length. -/
def le64 (n : Nat) : List Nat := (List.range 8).map fun i => (n / 256 ^ i) % 256

/-- The padded message: a one bit, zeros, and the bit length in the last 8 bytes. -/
def pad (msg : List Nat) : List Nat :=
  let l := msg.length
  msg ++ 0x80 :: List.replicate ((119 - l % 64) % 64) 0 ++ le64 ((8 * l) % 2 ^ 64)

/-- The call `md5.Sum(data)`: the digest of a byte string. -/
def Sum (msg : List Nat) : Digest :=
  let p := pad msg
  blocks (p.length / 64) init p

/-- The four little-endian bytes of a word. -/
def le32 (n : Nat) : List Nat :=
  [n % 256, (n / 256) % 256, (n / 65536) % 256, (n / 16777216) % 256]

/-- The sixteen bytes of a digest. -/
def Digest.bytes (d : Digest) : List Nat := le32 d.a ++ le32 d.b ++ le32 d.c ++ le32 d.d

end md5

/-- The format verb `%x` on a byte array: two lower-case hexadecimal digits per byte. -/
def hexBytes (bs : List Nat) : List Char :=
  bs.flatMap fun b => [json.hexDigit (b / 16), json.hexDigit (b % 16)]

/-! ## `client_manager` -/

/-- The function `calculateHash`: the hexadecimal MD5 digest of the playlist's JSON.
The error of `json.Marshal` is discarded; on an error the data is `nil`, the empty
byte string. -/
def calculateHash (playlist : Playlist) : String :=
  let data : String :=
    match json.Marshal playlist with
    | .ok data => data
    | .error _ => ""
  String.mk (hexBytes (md5.Sum (utf8Encode data.data)).bytes)

/-- The function `isValidClientID`. -/
def isValidClientID (id : String) : Bool := len id > 0 && len id ≤ 36

/-- A connection handle (`net.Conn`). -/
abbrev Conn := Nat

/-- The struct `PlaylistVersion`. -/
structure PlaylistVersion where
  VersionHash : String
  Playlist : Playlist
deriving DecidableEq

/-- The zero value `PlaylistVersion{}`, which is also what reading a missing key of
the map yields. -/
def PlaylistVersion.zero : PlaylistVersion := ⟨"", Playlist.zero⟩

/-- The struct `ClientManager` (without the listener). -/
structure ClientManager where
  Mutex : Bool
  Connections : List Conn
  PlaylistVersions : String → Option PlaylistVersion

/-- The map read `cm.PlaylistVersions[clientID]`. -/
def ClientManager.version (cm : ClientManager) (clientID : String) : PlaylistVersion :=
  (cm.PlaylistVersions clientID).getD PlaylistVersion.zero

/-- The map write `cm.PlaylistVersions[clientID] = v`. -/
def ClientManager.setVersion (cm : ClientManager) (clientID : String) (v : PlaylistVersion) :
    ClientManager :=
  { cm with PlaylistVersions := fun k => if k = clientID then some v else cm.PlaylistVersions k }

/-- The state after `NewManager`: no connection, no version, the mutex free. -/
def NewManager : ClientManager := ⟨false, [], fun _ => none⟩

/-- How far a call has come: it has returned, it is parked in `Mutex.Lock` on a held
mutex, or it is still going round a loop that has no exit. -/
inductive Run (σ : Type) where
  | returned (s : σ)
  | blocked (s : σ)
  | looping (s : σ)

/-- The method `AddConnection`: under the lock, append the connection; the connection
is also the result. -/
def ClientManager.AddConnection (cm : ClientManager) (conn : Conn) :
    Run (ClientManager × Conn) :=
  if cm.Mutex then .blocked (cm, conn)
  else
    let cm := { cm with Mutex := true }
    let cm := { cm with Connections := cm.Connections ++ [conn] }
    .returned ({ cm with Mutex := false }, conn)

/-- The range loop of `RemoveConnection` from index `i` on, over the entries from that
index: the first index whose entry is `conn`. -/
def RemoveConnection.find (conn : Conn) : List Conn → Nat → Option Nat
  | [], _ => none
  | c :: rest, i => if c = conn then some i else RemoveConnection.find conn rest (i + 1)

/-- The method `RemoveConnection`: under the lock, at the first index `i` whose entry is
`conn`, the registry becomes `append(Connections[:i], Connections[i+1:]...)`. -/
def ClientManager.RemoveConnection (cm : ClientManager) (conn : Conn) : Run ClientManager :=
  if cm.Mutex then .blocked cm
  else
    let cm := { cm with Mutex := true }
    match RemoveConnection.find conn cm.Connections 0 with
    | some i =>
      let cm := { cm with Connections := cm.Connections.take i ++ cm.Connections.drop (i + 1) }
      .returned { cm with Mutex := false }
    | none => .returned { cm with Mutex := false }

/-- One call of `conn.Write`: the connection, the data, and whether the call
answered with an error. -/
structure WriteCall where
  conn : Conn
  data : String
  failed : Bool
deriving DecidableEq

/-- The state of the service: the manager, the `Close` calls made so far and the
`Write` calls made so far, both in order. -/
structure Server where
  cm : ClientManager
  closed : List Conn
  written : List WriteCall

/-- The method `RemoveAllConnections`: under the lock, close every connection and
start a fresh registry. -/
def Server.RemoveAllConnections (s : Server) : Run Server :=
  if s.cm.Mutex then .blocked s
  else
    .returned { s with
      cm := { s.cm with Mutex := false, Connections := [] }
      closed := s.closed ++ s.cm.Connections }

/-- The answers of the outside world.  `Read conn` is the result of the one
`conn.Read` of the handshake.  `First n clientID` is the result of the playlist
query of update cycle number `n`.  `WriteFails n conn` tells whether the `conn.Write`
of cycle `n` answers with an error. -/
structure Env where
  Read : Conn → Except String String
  First : Nat → String → Except String Playlist
  WriteFails : Nat → Conn → Bool

/-- The method `HandlePlaylistUpdate`, as update cycle number `n`.  It takes no lock
(the two lines that did are commented out in the source) and has no result; an
error of `conn.Write` is printed and nothing else. -/
def HandlePlaylistUpdate (env : Env) (n : Nat) (clientID : String) (conn : Conn)
    (s : Server) : Server :=
  match env.First n clientID with
  | .error _ => s
  | .ok currentPlaylist =>
    let newVersionHash := calculateHash currentPlaylist
    if (s.cm.version clientID).VersionHash = newVersionHash then s
    else
      let s := { s with cm := s.cm.setVersion clientID ⟨newVersionHash, currentPlaylist⟩ }
      match json.Marshal currentPlaylist with
      | .error _ => s
      | .ok data =>
        let response := data ++ "\n"
        { s with written := s.written ++ [⟨conn, response, env.WriteFails n conn⟩] }

/-- The deferred function of `HandleClient`: `RemoveConnection`, then `Close`. -/
def HandleClient.deferred (conn : Conn) (s : Server) : Run Server :=
  match s.cm.RemoveConnection conn with
  | .returned cm => .returned { s with cm := cm, closed := s.closed ++ [conn] }
  | .blocked cm => .blocked { s with cm := cm }
  | .looping cm => .looping { s with cm := cm }

/-- The `for` loop of `HandleClient` over `periods` iterations, the first of which
starts cycle number `n`.  Each iteration starts one update cycle and sleeps five
seconds; the cycle is taken to finish within that time. -/
def HandleClient.loop (env : Env) (clientID : String) (conn : Conn) :
    Nat → Nat → Server → Server
  | 0, _, s => s
  | periods + 1, n, s =>
    HandleClient.loop env clientID conn periods (n + 1) (HandlePlaylistUpdate env n clientID conn s)

/-- The method `HandleClient`, followed for `periods` iterations of its loop.

The block that initialises the version record locks the mutex and defers the
unlock.  A deferred call runs when the surrounding function returns, not at the
end of the block, and the loop that follows never returns: the mutex stays held. -/
def HandleClient (env : Env) (conn : Conn) (periods : Nat) (s : Server) : Run Server :=
  match env.Read conn with
  | .error _ => HandleClient.deferred conn s
  | .ok buf =>
    let clientID := TrimSpace buf
    if !isValidClientID clientID then HandleClient.deferred conn s
    else if s.cm.Mutex then .blocked s
    else
      let cm := { s.cm with Mutex := true }
      let cm :=
        if (cm.PlaylistVersions clientID).isNone then cm.setVersion clientID PlaylistVersion.zero
        else cm
      .looping (HandleClient.loop env clientID conn periods 0 { s with cm := cm })

/-- The accept loop of `Listen`, followed over the results that `Listener.Accept`
gives in turn.  An accept error is printed and the loop goes on.  An accepted
connection is registered with `AddConnection` and its handler is started as a
goroutine, which then runs on its own; the loop does not wait for it.  The loop has
no exit: when the results are used up it is waiting in `Accept`. -/
def Listen : List (Except String Conn) → ClientManager → Run ClientManager
  | [], cm => .looping cm
  | .error _ :: rest, cm => Listen rest cm
  | .ok conn :: rest, cm =>
    match cm.AddConnection conn with
    | .returned (cm, _) => Listen rest cm
    | .blocked (cm, _) => .blocked cm
    | .looping (cm, _) => .looping cm

/-! ## Sample data

The records that `models.Seed` stores, and states of a session for screen `"1"`
on connection 5. -/

namespace Sample

/-- A time stamp as the storage layer sets it. -/
def stamp : Time := .instant "2025-03-01T08:15:00.25+01:00".data (by decide)

/-- The seeded image. -/
def image : Media :=
  { ID := 1, CreatedAt := stamp, UpdatedAt := stamp, DeletedAt := none,
    Name := .ofString "Image1", Path := .ofString "/media/image1.png",
    Type_ := .ofString "image", PlaylistID := 1 }

/-- The seeded video. -/
def video : Media :=
  { ID := 2, CreatedAt := stamp, UpdatedAt := stamp, DeletedAt := none,
    Name := .ofString "Video1", Path := .ofString "/media/video1.mp4",
    Type_ := .ofString "video", PlaylistID := 1 }

/-- The seeded playlist. -/
def playlist : Playlist :=
  { ID := 1, CreatedAt := stamp, UpdatedAt := stamp, DeletedAt := none,
    Name := .ofString "Playlist1", Items := some [image, video], ScreenID := 1 }

/-- The session of screen `"1"` on connection 5 right after its handshake: the
connection is registered, the version record is the empty one, and the handler
holds the mutex. -/
def active : Server :=
  { cm := { Mutex := true, Connections := [5]
            PlaylistVersions := fun k => if k = "1" then some PlaylistVersion.zero else none }
    closed := [], written := [] }

/-- The same session after the seeded playlist has been pushed. -/
def pushed : Server :=
  { active with cm := active.cm.setVersion "1" ⟨calculateHash playlist, playlist⟩ }

/-- A world in which the screen sends `1`, the query always finds the seeded
playlist, and every write succeeds. -/
def env : Env :=
  { Read := fun _ => .ok "1\n", First := fun _ _ => .ok playlist, WriteFails := fun _ _ => false }

/-- The same world, except that every write fails. -/
def envWriteFails : Env := { env with WriteFails := fun _ _ => true }

/-- The same world, except that the query fails. -/
def envNoRecord : Env := { env with First := fun _ _ => .error "record not found" }

/-- The JSON text of the seeded playlist. -/
def wire : String :=
  "\x7b\"ID\":1,\"CreatedAt\":\"2025-03-01T08:15:00.25+01:00\",\"UpdatedAt\":\"2025-03-01T08:15:00.25+01:00\",\"DeletedAt\":null,\"Name\":\"Playlist1\",\"Items\":[\x7b\"ID\":1,\"CreatedAt\":\"2025-03-01T08:15:00.25+01:00\",\"UpdatedAt\":\"2025-03-01T08:15:00.25+01:00\",\"DeletedAt\":null,\"Name\":\"Image1\",\"Path\":\"/media/image1.png\",\"Type\":\"image\",\"PlaylistID\":1\x7d,\x7b\"ID\":2,\"CreatedAt\":\"2025-03-01T08:15:00.25+01:00\",\"UpdatedAt\":\"2025-03-01T08:15:00.25+01:00\",\"DeletedAt\":null,\"Name\":\"Video1\",\"Path\":\"/media/video1.mp4\",\"Type\":\"video\",\"PlaylistID\":1\x7d],\"ScreenID\":1\x7d"

/-- The seeded playlist with its two items in the other order. -/
def reordered : Playlist := { playlist with Items := some [video, image] }

/-- The manager after `Listen` has accepted and registered connections 5 and 6, whose
handlers are both waiting for the handshake. -/
def accepted : Server :=
  { cm := { NewManager with Connections := [5, 6] }, closed := [], written := [] }

/-- The state once the handler of connection 5 has read the identifier `1`: the
empty version record exists and the handler holds the mutex. -/
def held : Server :=
  { accepted with
    cm := ({ accepted.cm with Mutex := true }).setVersion "1" PlaylistVersion.zero }

/-- A world with two screens: connection 5 sends the identifier `1`, every other
connection sends a line of white space only. -/
def envTwo : Env :=
  { env with Read := fun conn => if conn = 5 then .ok "1\n" else .ok " \r\n" }

/-- A world in which the write of the first cycle fails and the playlist is found
reordered from the second cycle on. -/
def envFlaky : Env :=
  { Read := fun _ => .ok "1\n"
    First := fun n _ => if n = 0 then .ok playlist else .ok reordered
    WriteFails := fun n _ => n == 0 }

/-- A later time stamp. -/
def later : Time := .instant "2025-03-02T17:40:12Z".data (by decide)

/-- The seeded playlist after its row has been saved again without any change of
name or items: the storage layer has set `UpdatedAt` anew. -/
def touched : Playlist := { playlist with UpdatedAt := later }

/-- The seeded playlist stored once more, for screen 2: another row with the same
name and the same items. -/
def copy : Playlist := { playlist with ID := 2, ScreenID := 2 }

/-- The seeded image under a name of `n` letters. -/
def renamed (n : Nat) : Media := { image with Name := List.replicate n 97 }

/-- The name `Café` as a client with a Latin-1 locale stores it: the last byte, `E9`,
belongs to no valid UTF-8 encoding. -/
def cafe : GoString := [0x43, 0x61, 0x66, 0xE9]

/-- The name `Cafè` in Latin-1: the last byte is `E8`. -/
def cafeGrave : GoString := [0x43, 0x61, 0x66, 0xE8]

/-- The seeded playlist with a creation time in the year 10000, which
`Time.MarshalJSON` refuses. -/
def undated : Playlist := { playlist with CreatedAt := .outOfRange }

/-- The seeded playlist with the given items. -/
def withItems (items : List Media) : Playlist := { playlist with Items := some items }

end Sample

/-! ## Vocabulary of the statements -/

/-- The state in which a call ended up, however far it came. -/
def Run.state {σ : Type} : Run σ → σ
  | .returned s => s
  | .blocked s => s
  | .looping s => s

/-- Whether a call has returned. -/
def Run.hasReturned {σ : Type} : Run σ → Bool
  | .returned _ => true
  | _ => false

/-- What a media item shows: its name, path and type. -/
def Media.content (m : Media) : GoString × GoString × GoString := (m.Name, m.Path, m.Type_)

/-- What the storage layer generates for a media item: the embedded `gorm.Model` and
the foreign key. -/
def Media.metadata (m : Media) : Model × Nat := (m.toModel, m.PlaylistID)

/-- The content of a playlist: its name and its slice of items with what each item
shows, in order. -/
def Playlist.content (p : Playlist) : GoString × Slice (GoString × GoString × GoString) :=
  (p.Name, p.Items.map (List.map Media.content))

/-- What the storage layer generates for a playlist and its items. -/
def Playlist.metadata (p : Playlist) : Model × Nat × Slice (Model × Nat) :=
  (p.toModel, p.ScreenID, p.Items.map (List.map Media.metadata))

/-- Whether the name, path and type of a media item are valid UTF-8. -/
def Media.ValidStrings (m : Media) : Bool :=
  utf8.ValidString m.Name && utf8.ValidString m.Path && utf8.ValidString m.Type_

/-- What the serialisation shows of a media item: every field, the strings as the
runes that `encoding/json` reads in them. -/
def Media.runes (m : Media) :
    Model × List (Option Char) × List (Option Char) × List (Option Char) × Nat :=
  (m.toModel, utf8.decode m.Name, utf8.decode m.Path, utf8.decode m.Type_, m.PlaylistID)

/-- What the serialisation shows of a playlist. -/
def Playlist.runes (p : Playlist) :
    Model × List (Option Char) ×
      Slice (Model × List (Option Char) × List (Option Char) × List (Option Char) × Nat) × Nat :=
  (p.toModel, utf8.decode p.Name, p.Items.map (List.map Media.runes), p.ScreenID)

/-- The digest that `calculateHash` prints. -/
def calculateHash.digest (playlist : Playlist) : md5.Digest :=
  md5.Sum (utf8Encode
    (match json.Marshal playlist with
      | .ok data => data
      | .error _ => "").data)

namespace json

/-- The number that a run of decimal digits denotes. -/
def digitsValue (ds : List Char) : Nat := ds.foldl (fun acc c => 10 * acc + (c.toNat - 48)) 0

/-- The value of a hexadecimal digit. -/
def hexValue (c : Char) : Nat := if c.isDigit then c.toNat - 48 else c.toNat - 87

/-- Reads one character of a JSON string literal back from the front of a text: the
inverse of `escapeChar`. -/
def unescapeChar : List Char → Option (Char × List Char)
  | [] => none
  | c :: rest =>
    if c ≠ '\\' then some (c, rest)
    else
      match rest with
      | [] => none
      | x :: rest =>
        if x = 'u' then
          match rest with
          | h3 :: h2 :: h1 :: h0 :: rest =>
            some (Char.ofNat (4096 * hexValue h3 + 256 * hexValue h2 + 16 * hexValue h1 +
              hexValue h0), rest)
          | _ => none
        else if x = 'b' then some (Char.ofNat 0x08, rest)
        else if x = 'f' then some (Char.ofNat 0x0C, rest)
        else if x = 'n' then some ('\n', rest)
        else if x = 'r' then some ('\r', rest)
        else if x = 't' then some ('\t', rest)
        else some (x, rest)

/-- Reads one rune of a JSON string literal back from the front of a text: the
inverse of `escapeRune`. -/
def unescapeRune (l : List Char) : Option (Option Char × List Char) :=
  if l.take 6 = ['\\', 'u', 'f', 'f', 'f', 'd'] then some (none, l.drop 6)
  else (unescapeChar l).map fun r => (some r.1, r.2)

end json

/-! # Properties -/

set_option maxRecDepth 100000

/-! ## The identifier check -/

theorem utf8EncodeChar_length (c : Char) : (utf8EncodeChar c).length = c.utf8Size := by
  have hv : c.val.toBitVec.toNat = c.toNat := rfl
  simp only [utf8EncodeChar, Char.utf8Size, UInt32.le_def, BitVec.le_def, hv]
  have e1 : (UInt32.ofNatCore 127 Char.utf8Size.proof_1).toBitVec.toNat = 127 := rfl
  have e2 : (UInt32.ofNatCore 2047 Char.utf8Size.proof_2).toBitVec.toNat = 2047 := rfl
  have e3 : (UInt32.ofNatCore 65535 Char.utf8Size.proof_3).toBitVec.toNat = 65535 := rfl
  rw [e1, e2, e3]
  split_ifs <;> first | rfl | omega

theorem len_eq_length_utf8Encode (s : String) : len s = (utf8Encode s.data).length := by
  obtain ⟨l⟩ := s
  simp only [len, String.utf8ByteSize, utf8Encode]
  induction l with
  | nil => rfl
  | cons c cs ih =>
    simp only [String.utf8ByteSize.go, List.flatMap_cons, List.length_append, ih,
      utf8EncodeChar_length]
    omega

/-- C4.  `isValidClientID` accepts exactly the identifiers of 1 to 36 bytes: the
empty identifier and one of 37 bytes are refused, one of 1 byte and one of 36 bytes
are accepted. -/
theorem isValidClientID_iff_length (id : String) :
    isValidClientID id = true ↔
      1 ≤ (utf8Encode id.data).length ∧ (utf8Encode id.data).length ≤ 36 := by
  rw [← len_eq_length_utf8Encode]
  simp [isValidClientID]
  omega

/-! ## The registry -/

theorem RemoveConnection.find_append (c : Conn) (pre post : List Conn) (i : Nat) (h : c ∉ pre) :
    RemoveConnection.find c (pre ++ c :: post) i = some (i + pre.length) := by
  induction pre generalizing i with
  | nil => simp [RemoveConnection.find]
  | cons x xs ih =>
    have hx : x ≠ c := fun e => h (by simp [e])
    have hxs : c ∉ xs := fun e => h (by simp [e])
    simp [RemoveConnection.find, hx, ih (i + 1) hxs]
    omega

theorem RemoveConnection.find_absent (c : Conn) (l : List Conn) (i : Nat) (h : c ∉ l) :
    RemoveConnection.find c l i = none := by
  induction l generalizing i with
  | nil => simp [RemoveConnection.find]
  | cons x xs ih =>
    have hx : x ≠ c := fun e => h (by simp [e])
    have hxs : c ∉ xs := fun e => h (by simp [e])
    simp [RemoveConnection.find, hx, ih (i + 1) hxs]

theorem RemoveConnection_present (cm : ClientManager) (c : Conn) (pre post : List Conn)
    (hfree : cm.Mutex = false) (hsplit : cm.Connections = pre ++ c :: post) (hfirst : c ∉ pre) :
    cm.RemoveConnection c = .returned { cm with Connections := pre ++ post } := by
  obtain ⟨m, l, v⟩ := cm
  simp only at hfree hsplit
  subst hfree hsplit
  simp [ClientManager.RemoveConnection, RemoveConnection.find_append c pre post 0 hfirst]

theorem RemoveConnection_absent (cm : ClientManager) (c : Conn)
    (hfree : cm.Mutex = false) (habs : c ∉ cm.Connections) :
    cm.RemoveConnection c = .returned cm := by
  obtain ⟨m, l, v⟩ := cm
  simp only at hfree habs
  subst hfree
  simp [ClientManager.RemoveConnection, RemoveConnection.find_absent c l 0 habs]

/-- C10.  When `RemoveConnection c` gets the lock, it deletes the first entry equal to
`c` and keeps every other entry in place: a registry `pre ++ c :: post` with `c` not
in `pre` becomes `pre ++ post`, and a registry without `c` stays as it is.  Hence, for
`c` not yet registered, `AddConnection c` appends `c` and answers `c`, and
`RemoveConnection c` after it gives back the manager as it was. -/
theorem RemoveConnection_first_entry (cm : ClientManager) (c : Conn)
    (hfree : cm.Mutex = false) :
    (∀ pre post, cm.Connections = pre ++ c :: post → c ∉ pre →
      cm.RemoveConnection c = .returned { cm with Connections := pre ++ post }) ∧
    (c ∉ cm.Connections → cm.RemoveConnection c = .returned cm) ∧
    (c ∉ cm.Connections →
      cm.AddConnection c = .returned ({ cm with Connections := cm.Connections ++ [c] }, c) ∧
      ({ cm with Connections := cm.Connections ++ [c] } : ClientManager).RemoveConnection c =
        .returned cm) := by
  refine ⟨fun pre post hs hp => RemoveConnection_present cm c pre post hfree hs hp,
    RemoveConnection_absent cm c hfree, fun habs => ⟨?_, ?_⟩⟩
  · obtain ⟨m, l, v⟩ := cm
    simp only at hfree
    subst hfree
    simp [ClientManager.AddConnection]
  · have := RemoveConnection_present { cm with Connections := cm.Connections ++ [c] } c
      cm.Connections [] hfree rfl habs
    simpa using this

/-- Witness of C10: removing connection 7 from the registry 4, 7, 9, 7. -/
theorem RemoveConnection_first_entry_witness :
    (⟨false, [4, 7, 9, 7], fun _ => none⟩ : ClientManager).Mutex = false ∧
    (⟨false, [4, 7, 9, 7], fun _ => none⟩ : ClientManager).RemoveConnection 7 =
      .returned ⟨false, [4, 9, 7], fun _ => none⟩ :=
  ⟨rfl, (RemoveConnection_first_entry ⟨false, [4, 7, 9, 7], fun _ => none⟩ 7 rfl).1 [4] [9, 7]
    rfl (by decide)⟩

/-! ## One update cycle -/

theorem HandlePlaylistUpdate_of_change (env : Env) (n : Nat) (clientID : String) (conn : Conn)
    (s : Server) (playlist : Playlist)
    (hfetch : env.First n clientID = .ok playlist)
    (hdiff : calculateHash playlist ≠ (s.cm.version clientID).VersionHash) :
    HandlePlaylistUpdate env n clientID conn s =
      match json.Marshal playlist with
      | .error _ =>
        { s with cm := s.cm.setVersion clientID ⟨calculateHash playlist, playlist⟩ }
      | .ok data =>
        { s with
          cm := s.cm.setVersion clientID ⟨calculateHash playlist, playlist⟩
          written := s.written ++ [⟨conn, data ++ "\n", env.WriteFails n conn⟩] } := by
  unfold HandlePlaylistUpdate
  simp only [hfetch, if_neg (Ne.symm hdiff)]

/-- C2.  A cycle whose fetched playlist hashes to the stored `VersionHash` leaves the
whole state as it was: no `Write` call is added, and `PlaylistVersions` and
`Connections` are untouched. -/
theorem HandlePlaylistUpdate_unchanged_playlist (env : Env) (n : Nat) (clientID : String)
    (conn : Conn) (s : Server) (playlist : Playlist)
    (hfetch : env.First n clientID = .ok playlist)
    (hsame : calculateHash playlist = (s.cm.version clientID).VersionHash) :
    HandlePlaylistUpdate env n clientID conn s = s := by
  unfold HandlePlaylistUpdate
  simp [hfetch, hsame]

/-- C3.  A cycle whose fetched playlist hashes differently from the stored hash, and
whose serialisation and write succeed, makes exactly one `Write` call, of the JSON text
followed by one newline; afterwards the record of `clientID` is the new hash with the
new playlist, the records of all other identifiers are as before, and nothing is
closed or unregistered. -/
theorem HandlePlaylistUpdate_pushes_once (env : Env) (n : Nat) (clientID : String)
    (conn : Conn) (s : Server) (playlist : Playlist) (data : String)
    (hfetch : env.First n clientID = .ok playlist)
    (hdiff : calculateHash playlist ≠ (s.cm.version clientID).VersionHash)
    (hser : json.Marshal playlist = .ok data)
    (hwrite : env.WriteFails n conn = false) :
    (HandlePlaylistUpdate env n clientID conn s).written =
        s.written ++ [⟨conn, data ++ "\n", false⟩] ∧
      (HandlePlaylistUpdate env n clientID conn s).cm.PlaylistVersions clientID =
        some ⟨calculateHash playlist, playlist⟩ ∧
      (∀ other, other ≠ clientID →
        (HandlePlaylistUpdate env n clientID conn s).cm.PlaylistVersions other =
          s.cm.PlaylistVersions other) ∧
      (HandlePlaylistUpdate env n clientID conn s).cm.Connections = s.cm.Connections ∧
      (HandlePlaylistUpdate env n clientID conn s).closed = s.closed := by
  rw [HandlePlaylistUpdate_of_change env n clientID conn s playlist hfetch hdiff, hser, hwrite]
  refine ⟨rfl, ?_, ?_, rfl, rfl⟩
  · simp [ClientManager.setVersion]
  · intro other hne
    simp [ClientManager.setVersion, hne]

/-- C6.  A cycle whose playlist query fails leaves the whole state as it was: no
`Write` call, and `PlaylistVersions` unchanged. -/
theorem HandlePlaylistUpdate_fetch_error (env : Env) (n : Nat) (clientID : String)
    (conn : Conn) (s : Server) (err : String)
    (hfetch : env.First n clientID = .error err) :
    HandlePlaylistUpdate env n clientID conn s = s := by
  unfold HandlePlaylistUpdate
  simp [hfetch]

/-- C1, amended.  A cycle whose fetched playlist hashes differently from the stored
hash replaces the record of `clientID` by the new hash and playlist before it
serialises and writes, so the record is the new one whether the write succeeds or
fails; the records of all other identifiers are as before. -/
theorem HandlePlaylistUpdate_replaces_before_write (env : Env) (n : Nat) (clientID : String)
    (conn : Conn) (s : Server) (playlist : Playlist)
    (hfetch : env.First n clientID = .ok playlist)
    (hdiff : calculateHash playlist ≠ (s.cm.version clientID).VersionHash) :
    (HandlePlaylistUpdate env n clientID conn s).cm.PlaylistVersions clientID =
        some ⟨calculateHash playlist, playlist⟩ ∧
      (∀ other, other ≠ clientID →
        (HandlePlaylistUpdate env n clientID conn s).cm.PlaylistVersions other =
          s.cm.PlaylistVersions other) := by
  rw [HandlePlaylistUpdate_of_change env n clientID conn s playlist hfetch hdiff]
  cases json.Marshal playlist <;> refine ⟨?_, ?_⟩
  · simp [ClientManager.setVersion]
  · intro other hne
    simp [ClientManager.setVersion, hne]
  · simp [ClientManager.setVersion]
  · intro other hne
    simp [ClientManager.setVersion, hne]

/-- Witness of C2: the seeded playlist is found again after it has been pushed. -/
theorem HandlePlaylistUpdate_unchanged_playlist_witness :
    Sample.env.First 3 "1" = .ok Sample.playlist ∧
    calculateHash Sample.playlist = (Sample.pushed.cm.version "1").VersionHash ∧
    HandlePlaylistUpdate Sample.env 3 "1" 5 Sample.pushed = Sample.pushed :=
  ⟨rfl, rfl, HandlePlaylistUpdate_unchanged_playlist Sample.env 3 "1" 5 Sample.pushed
    Sample.playlist rfl rfl⟩

/-- Witness of C3: the first cycle of the session pushes the seeded playlist. -/
theorem HandlePlaylistUpdate_pushes_once_witness :
    (HandlePlaylistUpdate Sample.env 0 "1" 5 Sample.active).written =
      [⟨5, Sample.wire ++ "\n", false⟩] :=
  (HandlePlaylistUpdate_pushes_once Sample.env 0 "1" 5 Sample.active Sample.playlist
    Sample.wire rfl (by decide) (by rfl) rfl).1

/-- Witness of C6: the query fails. -/
theorem HandlePlaylistUpdate_fetch_error_witness :
    Sample.envNoRecord.First 0 "1" = .error "record not found" ∧
    HandlePlaylistUpdate Sample.envNoRecord 0 "1" 5 Sample.active = Sample.active :=
  ⟨rfl, HandlePlaylistUpdate_fetch_error Sample.envNoRecord 0 "1" 5 Sample.active
    "record not found" rfl⟩

/-- Counterexample to C1.  The first cycle of a session finds the seeded playlist, whose
hash differs from the stored empty hash; the write fails; the record of screen `"1"`
is the empty one before the cycle and the seeded playlist after it. -/
theorem HandlePlaylistUpdate_write_failure_record_changed :
    Sample.envWriteFails.First 0 "1" = .ok Sample.playlist ∧
    calculateHash Sample.playlist ≠ (Sample.active.cm.version "1").VersionHash ∧
    (HandlePlaylistUpdate Sample.envWriteFails 0 "1" 5 Sample.active).written =
      [⟨5, Sample.wire ++ "\n", true⟩] ∧
    Sample.active.cm.PlaylistVersions "1" = some ⟨"", Playlist.zero⟩ ∧
    (HandlePlaylistUpdate Sample.envWriteFails 0 "1" 5 Sample.active).cm.PlaylistVersions "1" =
      some ⟨"40d7b1d830b8a132a786a130c88aafde", Sample.playlist⟩ := by
  refine ⟨rfl, by decide, by decide, rfl, by decide⟩

/-- Witness of C1, amended: the write of the first cycle fails. -/
theorem HandlePlaylistUpdate_replaces_before_write_witness :
    (HandlePlaylistUpdate Sample.envWriteFails 0 "1" 5 Sample.active).cm.PlaylistVersions "1" =
      some ⟨calculateHash Sample.playlist, Sample.playlist⟩ :=
  (HandlePlaylistUpdate_replaces_before_write Sample.envWriteFails 0 "1" 5 Sample.active
    Sample.playlist rfl (by decide)).1

/-! ## Byte strings -/

theorem Char.toNat_ofNat_of_valid (n : Nat) (h : n.isValidChar) : (Char.ofNat n).toNat = n := by
  unfold Char.ofNat
  rw [dif_pos h]
  rfl

namespace utf8

theorem Fin_ofNat_val (b : Byte) (n : Nat) (h : n = b.val) : (Fin.ofNat n : Byte) = b := by
  subst h
  exact Fin.ext (by simp [Fin.ofNat])

theorem two_bytes (b0 b1 : Nat) (h0 : ¬ b0 < 0xC2) (h0' : b0 < 0xE0)
    (h1 : ¬ (b1 < acceptLo b0 ∨ acceptHi b0 < b1)) :
    (b0 % 32 * 64 + b1 % 64).isValidChar ∧ ¬ b0 % 32 * 64 + b1 % 64 < 0x80 ∧
      b0 % 32 * 64 + b1 % 64 < 0x800 ∧ 0xC0 + (b0 % 32 * 64 + b1 % 64) / 64 = b0 ∧
      0x80 + (b0 % 32 * 64 + b1 % 64) % 64 = b1 := by
  unfold acceptLo acceptHi at h1
  unfold Nat.isValidChar
  split_ifs at h1 <;> omega

theorem three_bytes (b0 b1 b2 : Nat) (h0 : ¬ b0 < 0xE0) (h0' : b0 < 0xF0)
    (h1 : ¬ (b1 < acceptLo b0 ∨ acceptHi b0 < b1)) (h2 : ¬ (b2 < 0x80 ∨ 0xBF < b2)) :
    (b0 % 16 * 4096 + b1 % 64 * 64 + b2 % 64).isValidChar ∧
      ¬ b0 % 16 * 4096 + b1 % 64 * 64 + b2 % 64 < 0x800 ∧
      b0 % 16 * 4096 + b1 % 64 * 64 + b2 % 64 < 0x10000 ∧
      0xE0 + (b0 % 16 * 4096 + b1 % 64 * 64 + b2 % 64) / 4096 = b0 ∧
      0x80 + (b0 % 16 * 4096 + b1 % 64 * 64 + b2 % 64) / 64 % 64 = b1 ∧
      0x80 + (b0 % 16 * 4096 + b1 % 64 * 64 + b2 % 64) % 64 = b2 := by
  unfold acceptLo acceptHi at h1
  unfold Nat.isValidChar
  split_ifs at h1 <;> omega

theorem four_bytes (b0 b1 b2 b3 : Nat) (h0 : ¬ b0 < 0xF0) (h0' : ¬ 0xF4 < b0)
    (h1 : ¬ (b1 < acceptLo b0 ∨ acceptHi b0 < b1)) (h2 : ¬ (b2 < 0x80 ∨ 0xBF < b2))
    (h3 : ¬ (b3 < 0x80 ∨ 0xBF < b3)) :
    (b0 % 8 * 262144 + b1 % 64 * 4096 + b2 % 64 * 64 + b3 % 64).isValidChar ∧
      ¬ b0 % 8 * 262144 + b1 % 64 * 4096 + b2 % 64 * 64 + b3 % 64 < 0x10000 ∧
      0xF0 + (b0 % 8 * 262144 + b1 % 64 * 4096 + b2 % 64 * 64 + b3 % 64) / 262144 = b0 ∧
      0x80 + (b0 % 8 * 262144 + b1 % 64 * 4096 + b2 % 64 * 64 + b3 % 64) / 4096 % 64 = b1 ∧
      0x80 + (b0 % 8 * 262144 + b1 % 64 * 4096 + b2 % 64 * 64 + b3 % 64) / 64 % 64 = b2 ∧
      0x80 + (b0 % 8 * 262144 + b1 % 64 * 4096 + b2 % 64 * 64 + b3 % 64) % 64 = b3 := by
  unfold acceptLo acceptHi at h1
  unfold Nat.isValidChar
  split_ifs at h1 <;> omega

theorem bytesOf_of_toNat (c : Char) (v : Nat) (hv : c.toNat = v) :
    bytesOf (some c) =
      (if v < 0x80 then [v]
        else if v < 0x800 then [0xC0 + v / 64, 0x80 + v % 64]
        else if v < 0x10000 then [0xE0 + v / 4096, 0x80 + (v / 64) % 64, 0x80 + v % 64]
        else [0xF0 + v / 262144, 0x80 + (v / 4096) % 64, 0x80 + (v / 64) % 64,
          0x80 + v % 64]).map fun n => (Fin.ofNat n : Byte) := by
  subst hv
  rfl

/-- What `DecodeRune` reads as a rune is the UTF-8 encoding of that rune, and the
width is its length. -/
theorem DecodeRune_some (s : List Byte) (c : Char) (n : Nat)
    (h : DecodeRune s = (some c, n)) :
    s = bytesOf (some c) ++ s.drop n ∧ n = (bytesOf (some c)).length := by
  cases s with
  | nil => simp [DecodeRune] at h
  | cons s0 rest =>
    simp only [DecodeRune] at h
    by_cases a1 : s0.val < 0x80
    · simp only [a1, if_true, Prod.mk.injEq, Option.some.injEq] at h
      obtain ⟨hc, hn⟩ := h
      have hv : c.toNat = s0.val := by
        rw [← hc]; exact Char.toNat_ofNat_of_valid _ (Or.inl (by omega))
      subst hn
      rw [bytesOf_of_toNat c _ hv, if_pos a1]
      simp [Fin_ofNat_val s0 _ rfl]
    · by_cases a2 : s0.val < 0xC2 ∨ 0xF4 < s0.val
      · simp [a1, a2] at h
      · simp only [a1, a2, if_false] at h
        cases rest with
        | nil => simp at h
        | cons s1 rest =>
          simp only at h
          by_cases b1 : s1.val < acceptLo s0.val ∨ acceptHi s0.val < s1.val
          · simp [b1] at h
          · simp only [b1, if_false] at h
            by_cases a3 : s0.val < 0xE0
            · simp only [a3, if_true, Prod.mk.injEq, Option.some.injEq] at h
              obtain ⟨hc, hn⟩ := h
              obtain ⟨hval, k1, k2, e0, e1⟩ :=
                two_bytes s0.val s1.val (by omega) a3 b1
              have hv := Char.toNat_ofNat_of_valid _ hval
              rw [hc] at hv
              subst hn
              rw [bytesOf_of_toNat c _ hv, if_neg k1, if_pos k2]
              simp only [List.map_cons, List.map_nil, List.cons_append, List.nil_append, List.drop_succ_cons, List.drop_zero, List.length_cons, List.length_nil, and_self, Fin_ofNat_val s0 _ e0,
                Fin_ofNat_val s1 _ e1]
            · simp only [a3, if_false] at h
              cases rest with
              | nil => simp at h
              | cons s2 rest =>
                simp only at h
                by_cases b2 : s2.val < 0x80 ∨ 0xBF < s2.val
                · simp [b2] at h
                · simp only [b2, if_false] at h
                  by_cases a4 : s0.val < 0xF0
                  · simp only [a4, if_true, Prod.mk.injEq, Option.some.injEq] at h
                    obtain ⟨hc, hn⟩ := h
                    obtain ⟨hval, k1, k2, e0, e1, e2⟩ :=
                      three_bytes s0.val s1.val s2.val a3 a4 b1 b2
                    have hv := Char.toNat_ofNat_of_valid _ hval
                    rw [hc] at hv
                    subst hn
                    rw [bytesOf_of_toNat c _ hv, if_neg (by omega), if_neg k1, if_pos k2]
                    simp only [List.map_cons, List.map_nil, List.cons_append, List.nil_append, List.drop_succ_cons, List.drop_zero, List.length_cons, List.length_nil, and_self, Fin_ofNat_val s0 _ e0,
                      Fin_ofNat_val s1 _ e1, Fin_ofNat_val s2 _ e2]
                  · simp only [a4, if_false] at h
                    cases rest with
                    | nil => simp at h
                    | cons s3 rest =>
                      simp only at h
                      by_cases b3 : s3.val < 0x80 ∨ 0xBF < s3.val
                      · simp [b3] at h
                      · simp only [b3, if_false, Prod.mk.injEq, Option.some.injEq] at h
                        obtain ⟨hc, hn⟩ := h
                        obtain ⟨hval, k1, e0, e1, e2, e3⟩ :=
                          four_bytes s0.val s1.val s2.val s3.val a4 (by omega) b1 b2 b3
                        have hv := Char.toNat_ofNat_of_valid _ hval
                        rw [hc] at hv
                        subst hn
                        rw [bytesOf_of_toNat c _ hv, if_neg (by omega), if_neg (by omega),
                          if_neg k1]
                        simp only [List.map_cons, List.map_nil, List.cons_append, List.nil_append, List.drop_succ_cons, List.drop_zero, List.length_cons, List.length_nil, and_self, Fin_ofNat_val s0 _ e0,
                          Fin_ofNat_val s1 _ e1, Fin_ofNat_val s2 _ e2, Fin_ofNat_val s3 _ e3]

/-- A byte string in which every byte belongs to a valid encoding is the UTF-8
encoding of its runes. -/
theorem decodeAux_bytes : ∀ (fuel : Nat) (s : List Byte), s.length ≤ fuel →
    (decodeAux fuel s).all Option.isSome = true → (decodeAux fuel s).flatMap bytesOf = s
  | 0, s, hlen, _ => by
    have : s = [] := List.length_eq_zero.1 (by omega)
    subst this
    rfl
  | fuel + 1, [], _, _ => rfl
  | fuel + 1, s0 :: rest, hlen, hall => by
    simp only [decodeAux, List.all_cons, Bool.and_eq_true] at hall
    obtain ⟨hsome, htail⟩ := hall
    obtain ⟨c, hc⟩ := Option.isSome_iff_exists.1 hsome
    have hdec : DecodeRune (s0 :: rest) = (some c, (DecodeRune (s0 :: rest)).2) := by
      rw [← hc]
    obtain ⟨hsplit, hn⟩ := DecodeRune_some _ c _ hdec
    have hpos : 0 < (DecodeRune (s0 :: rest)).2 := by
      rw [hn]
      rw [bytesOf_of_toNat c _ rfl]
      split_ifs <;> simp
    have hle : ((s0 :: rest).drop (DecodeRune (s0 :: rest)).2).length ≤ fuel := by
      rw [List.length_drop]
      simp only [List.length_cons] at hlen ⊢
      omega
    have ih := decodeAux_bytes fuel _ hle htail
    simp only [decodeAux, List.flatMap_cons, ih, hc]
    exact hsplit.symm

/-- Two byte strings with the same runes, one of them valid UTF-8, are the same. -/
theorem decode_injective_of_valid (s t : GoString) (h : decode s = decode t)
    (hs : ValidString s = true) : s = t := by
  have ht : ValidString t = true := by
    unfold ValidString at hs ⊢
    rw [← h]
    exact hs
  have e1 := decodeAux_bytes s.length s (Nat.le_refl _) hs
  have e2 := decodeAux_bytes t.length t (Nat.le_refl _) ht
  unfold decode at h
  rw [← e1, ← e2, h]

end utf8

/-! ## The serialisation determines the record -/

namespace json

/-- Two texts that agree after a run of characters of one class, each run ending at
a character outside the class, have the same run and the same rest. -/
theorem run_unique (P : Char → Prop) :
    ∀ (x y r s : List Char), (∀ c ∈ x, P c) → (∀ c ∈ y, P c) →
      (∀ c ∈ r.head?, ¬ P c) → (∀ c ∈ s.head?, ¬ P c) →
      x ++ r = y ++ s → x = y ∧ r = s
  | [], [], _, _, _, _, _, _, h => ⟨rfl, h⟩
  | [], d :: y, r, s, _, hy, hr, _, h => by
    simp only [List.nil_append] at h
    subst h
    exact absurd (hy d (by simp)) (hr d (by simp))
  | c :: x, [], r, s, hx, _, _, hs, h => by
    simp only [List.nil_append] at h
    subst h
    exact absurd (hx c (by simp)) (hs c (by simp))
  | c :: x, d :: y, r, s, hx, hy, hr, hs, h => by
    simp only [List.cons_append, List.cons.injEq] at h
    obtain ⟨hcd, hrest⟩ := h
    obtain ⟨hxy, hrs⟩ := run_unique P x y r s (fun a ha => hx a (by simp [ha]))
      (fun a ha => hy a (by simp [ha])) hr hs hrest
    exact ⟨by rw [hcd, hxy], hrs⟩

theorem hexDigit_isDigit (n : Nat) (h : n < 10) :
    (hexDigit n).isDigit = true ∧ (hexDigit n).toNat - 48 = n := by
  interval_cases n <;> decide

theorem digits_spec : ∀ (fuel n : Nat) (acc : List Char), n < fuel →
    ∃ ds, digits fuel n acc = ds ++ acc ∧ (∀ c ∈ ds, c.isDigit = true) ∧ digitsValue ds = n
  | 0, _, _, h => absurd h (Nat.not_lt_zero _)
  | fuel + 1, n, acc, h => by
    unfold digits
    split_ifs with hn
    · exact ⟨[hexDigit n], rfl, by simpa using (hexDigit_isDigit n hn).1,
        by simpa [digitsValue] using (hexDigit_isDigit n hn).2⟩
    · obtain ⟨ds, hds, hall, hval⟩ :=
        digits_spec fuel (n / 10) (hexDigit (n % 10) :: acc) (by omega)
      have hlast := hexDigit_isDigit (n % 10) (Nat.mod_lt _ (by decide))
      refine ⟨ds ++ [hexDigit (n % 10)], by simp [hds], ?_, ?_⟩
      · intro c hc
        rcases List.mem_append.1 hc with h1 | h1
        · exact hall c h1
        · rw [List.mem_singleton.1 h1]
          exact hlast.1
      · have : digitsValue (ds ++ [hexDigit (n % 10)]) =
            10 * digitsValue ds + ((hexDigit (n % 10)).toNat - 48) := by
          simp [digitsValue, List.foldl_append]
        rw [this, hval, hlast.2]
        omega

/-- An unsigned integer can be read back from its digits when a character that is
not a digit follows. -/
theorem encodeUint_unique (a b : Nat) (r s : List Char)
    (hr : ∀ c ∈ r.head?, ¬ c.isDigit = true) (hs : ∀ c ∈ s.head?, ¬ c.isDigit = true)
    (h : encodeUint a ++ r = encodeUint b ++ s) : a = b ∧ r = s := by
  obtain ⟨x, hx, hxall, hxval⟩ := digits_spec (a + 1) a [] (Nat.lt_succ_self a)
  obtain ⟨y, hy, hyall, hyval⟩ := digits_spec (b + 1) b [] (Nat.lt_succ_self b)
  simp only [List.append_nil] at hx hy
  unfold encodeUint at h
  rw [hx, hy] at h
  obtain ⟨hxy, hrs⟩ := run_unique (fun c => c.isDigit = true) x y r s hxall hyall hr hs h
  exact ⟨by rw [← hxval, ← hyval, hxy], hrs⟩

/-- A quoted text without a quote in it ends at its closing quote. -/
theorem quoted_unique (x y r s : List Char) (hx : '"' ∉ x) (hy : '"' ∉ y)
    (h : x ++ '"' :: r = y ++ '"' :: s) : x = y ∧ r = s := by
  obtain ⟨hxy, hrs⟩ := run_unique (fun c => c ≠ '"') x y ('"' :: r) ('"' :: s)
    (fun c hc e => hx (e ▸ hc)) (fun c hc e => hy (e ▸ hc)) (by simp) (by simp) h
  exact ⟨hxy, by simpa using hrs⟩

end json

theorem isTimeChar_ne_quote (text : List Char) (wf : text.all isTimeChar = true) :
    '"' ∉ text := by
  intro h
  have := List.all_eq_true.1 wf _ h
  revert this
  decide

/-- A time stamp can be read back from the front of a JSON text. -/
theorem Time.MarshalJSON_unique (t u : Time) (x y r s : List Char)
    (hx : t.MarshalJSON = .ok x) (hy : u.MarshalJSON = .ok y) (h : x ++ r = y ++ s) :
    t = u ∧ r = s := by
  cases t with
  | outOfRange => simp [Time.MarshalJSON] at hx
  | instant a wa =>
    cases u with
    | outOfRange => simp [Time.MarshalJSON] at hy
    | instant b wb =>
      simp only [Time.MarshalJSON, Except.ok.injEq] at hx hy
      subst hx hy
      simp only [List.cons_append, List.append_assoc, List.singleton_append,
        List.cons.injEq, true_and] at h
      obtain ⟨hab, hrs⟩ := json.quoted_unique a b r s (isTimeChar_ne_quote a wa)
        (isTimeChar_ne_quote b wb) h
      subst hab
      exact ⟨rfl, hrs⟩

namespace json

theorem hexValue_hexDigit : ∀ a : Fin 16, hexValue (hexDigit a) = a := by decide

theorem hexValue_hexDigit_lt (n : Nat) (h : n < 16) : hexValue (hexDigit n) = n :=
  hexValue_hexDigit ⟨n, h⟩

theorem toNat_eq_of_eq_ofNat (c : Char) (n : Nat) (h : c.toNat = n) : Char.ofNat n = c := by
  rw [← h]
  exact Char.ofNat_toNat c

/-- What `escapeChar` writes is read back by `unescapeChar`. -/
theorem unescapeChar_escapeChar (c : Char) (X : List Char) :
    unescapeChar (escapeChar c ++ X) = some (c, X) := by
  unfold escapeChar
  split_ifs with h1 h2 h3 h4 h5 h6 h7 h8
  · subst h1; rfl
  · subst h2; rfl
  · have e := toNat_eq_of_eq_ofNat c 8 h3
    simp [unescapeChar]
    exact e
  · have e := toNat_eq_of_eq_ofNat c 12 h4
    simp [unescapeChar]
    exact e
  · subst h5; rfl
  · subst h6; rfl
  · subst h7; rfl
  · have hlt : c.toNat < 65536 := by
      rcases h8 with h | h | h | h | h | h
      · omega
      · subst h; decide
      · subst h; decide
      · subst h; decide
      · omega
      · omega
    have key : 4096 * (c.toNat / 4096 % 16) + 256 * (c.toNat / 256 % 16) +
        16 * (c.toNat / 16 % 16) + c.toNat % 16 = c.toNat := by omega
    simp only [unescapeChar, List.cons_append, List.nil_append, ne_eq, not_true_eq_false,
      if_false, if_true]
    rw [hexValue_hexDigit_lt _ (Nat.mod_lt _ (by decide)),
      hexValue_hexDigit_lt _ (Nat.mod_lt _ (by decide)),
      hexValue_hexDigit_lt _ (Nat.mod_lt _ (by decide)),
      hexValue_hexDigit_lt _ (Nat.mod_lt _ (by decide)), key, Char.ofNat_toNat]
  · simp [unescapeChar, h2]

theorem escapeChar_ne_replacement (c : Char) (X : List Char) :
    (escapeChar c ++ X).take 6 ≠ ['\\', 'u', 'f', 'f', 'f', 'd'] := by
  unfold escapeChar
  split_ifs with h1 h2 h3 h4 h5 h6 h7 h8
  · simp
  · simp
  · simp
  · simp
  · simp
  · simp
  · simp
  · intro h
    simp only [List.cons_append, List.nil_append, List.take_succ_cons, List.take_zero,
      List.cons.injEq, true_and, and_true] at h
    have hv := congrArg hexValue h.1
    rw [hexValue_hexDigit_lt _ (Nat.mod_lt _ (by decide))] at hv
    have h15 : hexValue 'f' = 15 := by decide
    rw [h15] at hv
    have hlt : c.toNat < 12288 := by
      rcases h8 with h | h | h | h | h | h
      · omega
      · subst h; decide
      · subst h; decide
      · subst h; decide
      · omega
      · omega
    omega
  · intro h
    simp only [List.cons_append, List.nil_append, List.take_succ_cons, List.cons.injEq] at h
    exact h2 h.1

/-- What `escapeRune` writes is read back by `unescapeRune`. -/
theorem unescapeRune_escapeRune (e : Option Char) (X : List Char) :
    unescapeRune (escapeRune e ++ X) = some (e, X) := by
  cases e with
  | none => simp [unescapeRune, escapeRune]
  | some c =>
    simp only [unescapeRune, escapeRune, if_neg (escapeChar_ne_replacement c X),
      unescapeChar_escapeChar, Option.map_some']

theorem escapeRune_head (e : Option Char) : ∃ a l, escapeRune e = a :: l ∧ a ≠ '"' := by
  cases e with
  | none => exact ⟨'\\', _, rfl, by decide⟩
  | some c =>
    simp only [escapeRune]
    unfold escapeChar
    split_ifs with h1 h2 h3 h4 h5 h6 h7 h8
    all_goals first
      | exact ⟨'\\', _, rfl, by decide⟩
      | exact ⟨c, [], rfl, h1⟩

/-- The runes of a JSON string literal can be read back up to the closing quote. -/
theorem escape_unique : ∀ (a b : List (Option Char)) (r s : List Char),
    a.flatMap escapeRune ++ '"' :: r = b.flatMap escapeRune ++ '"' :: s → a = b ∧ r = s
  | [], [], r, s, h => ⟨rfl, by simpa using h⟩
  | [], d :: b, r, s, h => by
    obtain ⟨x, l, hx, hne⟩ := escapeRune_head d
    simp [List.flatMap_cons, hx] at h
    exact absurd h.1.symm hne
  | c :: a, [], r, s, h => by
    obtain ⟨x, l, hx, hne⟩ := escapeRune_head c
    simp [List.flatMap_cons, hx] at h
    exact absurd h.1 hne
  | c :: a, d :: b, r, s, h => by
    simp only [List.flatMap_cons, List.append_assoc] at h
    have := congrArg unescapeRune h
    rw [unescapeRune_escapeRune, unescapeRune_escapeRune] at this
    simp only [Option.some.injEq, Prod.mk.injEq] at this
    obtain ⟨hcd, hrest⟩ := this
    obtain ⟨hab, hrs⟩ := escape_unique a b r s hrest
    exact ⟨by rw [hcd, hab], hrs⟩

/-- The runes of a Go string can be read back from the front of a JSON text.  The
bytes cannot: every byte outside a valid encoding is written the same way. -/
theorem encodeString_unique (a b : GoString) (r s : List Char)
    (h : encodeString a ++ r = encodeString b ++ s) :
    utf8.decode a = utf8.decode b ∧ r = s := by
  simp only [encodeString, List.cons_append, List.append_assoc, List.singleton_append,
    List.cons.injEq, true_and] at h
  exact escape_unique _ _ r s h

end json

namespace json

theorem encodeDeletedAt_unique (t u : Option Time) (x y r s : List Char)
    (hx : encodeDeletedAt t = .ok x) (hy : encodeDeletedAt u = .ok y) (h : x ++ r = y ++ s) :
    t = u ∧ r = s := by
  have quoted : ∀ (v : Time) (z : List Char), v.MarshalJSON = .ok z → ∃ l, z = '"' :: l := by
    intro v z hz
    cases v with
    | outOfRange => simp [Time.MarshalJSON] at hz
    | instant a wa =>
      simp only [Time.MarshalJSON, Except.ok.injEq] at hz
      exact ⟨_, hz.symm⟩
  cases t with
  | none =>
    cases u with
    | none =>
      simp only [encodeDeletedAt, Except.ok.injEq] at hx hy
      subst hx hy
      exact ⟨rfl, List.append_cancel_left h⟩
    | some b =>
      simp only [encodeDeletedAt, Except.ok.injEq] at hx hy
      obtain ⟨l, hl⟩ := quoted b y hy
      subst hx hl
      simp at h
  | some a =>
    cases u with
    | none =>
      simp only [encodeDeletedAt, Except.ok.injEq] at hx hy
      obtain ⟨l, hl⟩ := quoted a x hx
      subst hy hl
      simp at h
    | some b =>
      simp only [encodeDeletedAt] at hx hy
      obtain ⟨hab, hrs⟩ := Time.MarshalJSON_unique a b x y r s hx hy h
      exact ⟨by rw [hab], hrs⟩

theorem encodeModel_ok (m : Model) (x : List Char) (h : encodeModel m = .ok x) :
    ∃ c u d, m.CreatedAt.MarshalJSON = .ok c ∧ m.UpdatedAt.MarshalJSON = .ok u ∧
      encodeDeletedAt m.DeletedAt = .ok d ∧
      x = "\"ID\":".data ++ (encodeUint m.ID ++ (",\"CreatedAt\":".data ++ (c ++
        (",\"UpdatedAt\":".data ++ (u ++ (",\"DeletedAt\":".data ++ d)))))) := by
  unfold encodeModel at h
  cases hc : m.CreatedAt.MarshalJSON with
  | error e => simp [hc, bind, Except.bind] at h
  | ok c =>
    cases hu : m.UpdatedAt.MarshalJSON with
    | error e => simp [hc, hu, bind, Except.bind] at h
    | ok u =>
      cases hd : encodeDeletedAt m.DeletedAt with
      | error e => simp [hc, hu, hd, bind, Except.bind] at h
      | ok d =>
        simp only [hc, hu, hd, bind, Except.bind, pure, Except.pure, Except.ok.injEq] at h
        exact ⟨c, u, d, rfl, rfl, rfl, by simp [← h]⟩

/-- The members of a `gorm.Model` can be read back from the front of a JSON text. -/
theorem encodeModel_unique (m n : Model) (x y r s : List Char)
    (hx : encodeModel m = .ok x) (hy : encodeModel n = .ok y) (h : x ++ r = y ++ s) :
    m = n ∧ r = s := by
  obtain ⟨c, u, d, hc, hu, hd, rfl⟩ := encodeModel_ok m x hx
  obtain ⟨c', u', d', hc', hu', hd', rfl⟩ := encodeModel_ok n y hy
  simp only [List.append_assoc] at h
  have h1 := List.append_cancel_left h
  obtain ⟨hid, h2⟩ := encodeUint_unique _ _ _ _ (by simp) (by simp) h1
  have h3 := List.append_cancel_left h2
  obtain ⟨hcr, h4⟩ := Time.MarshalJSON_unique _ _ _ _ _ _ hc hc' h3
  have h5 := List.append_cancel_left h4
  obtain ⟨hup, h6⟩ := Time.MarshalJSON_unique _ _ _ _ _ _ hu hu' h5
  have h7 := List.append_cancel_left h6
  obtain ⟨hde, h8⟩ := encodeDeletedAt_unique _ _ _ _ _ _ hd hd' h7
  obtain ⟨i, a, b, e⟩ := m
  obtain ⟨i', a', b', e'⟩ := n
  simp only at hid hcr hup hde
  subst hid hcr hup hde
  exact ⟨rfl, h8⟩

end json

namespace json

theorem encodeMedia_ok (m : Media) (x : List Char) (h : encodeMedia m = .ok x) :
    ∃ model, encodeModel m.toModel = .ok model ∧
      x = '{' :: (model ++ (",\"Name\":".data ++ (encodeString m.Name ++
        (",\"Path\":".data ++ (encodeString m.Path ++ (",\"Type\":".data ++
        (encodeString m.Type_ ++ (",\"PlaylistID\":".data ++
        (encodeUint m.PlaylistID ++ ['}']))))))))) := by
  unfold encodeMedia at h
  cases hm : encodeModel m.toModel with
  | error e => simp [hm, bind, Except.bind] at h
  | ok model =>
    simp only [hm, bind, Except.bind, pure, Except.pure, Except.ok.injEq] at h
    exact ⟨model, rfl, by simp [← h]⟩

/-- What the serialisation shows of a `Media` can be read back from the front of a
JSON text. -/
theorem encodeMedia_unique (m n : Media) (x y r s : List Char)
    (hx : encodeMedia m = .ok x) (hy : encodeMedia n = .ok y) (h : x ++ r = y ++ s) :
    m.runes = n.runes ∧ r = s := by
  obtain ⟨a, ha, rfl⟩ := encodeMedia_ok m x hx
  obtain ⟨b, hb, rfl⟩ := encodeMedia_ok n y hy
  simp only [List.cons_append, List.append_assoc, List.cons.injEq, true_and] at h
  obtain ⟨hmodel, h1⟩ := encodeModel_unique _ _ _ _ _ _ ha hb h
  simp only [List.cons_append, List.nil_append, List.append_assoc, List.cons.injEq, true_and] at h1
  obtain ⟨hname, h3⟩ := encodeString_unique _ _ _ _ h1
  simp only [List.cons_append, List.nil_append, List.append_assoc, List.cons.injEq, true_and] at h3
  obtain ⟨hpath, h5⟩ := encodeString_unique _ _ _ _ h3
  simp only [List.cons_append, List.nil_append, List.append_assoc, List.cons.injEq, true_and] at h5
  obtain ⟨htype, h7⟩ := encodeString_unique _ _ _ _ h5
  simp only [List.cons_append, List.nil_append, List.append_assoc, List.cons.injEq, true_and] at h7
  obtain ⟨hpid, h9⟩ := encodeUint_unique _ _ _ _ (by simp) (by simp) h7
  refine ⟨?_, by simpa using h9⟩
  simp only [Media.runes, hmodel, hname, hpath, htype, hpid]

theorem encodeMore_unique : ∀ (l k : List Media) (x y r s : List Char),
    encodeMore l = .ok x → encodeMore k = .ok y → x ++ r = y ++ s →
    l.map Media.runes = k.map Media.runes ∧ r = s
  | [], [], x, y, r, s, hx, hy, h => by
    simp only [encodeMore, Except.ok.injEq] at hx hy
    subst hx hy
    exact ⟨rfl, by simpa using h⟩
  | [], n :: k, x, y, r, s, hx, hy, h => by
    simp only [encodeMore, Except.ok.injEq] at hx
    unfold encodeMore at hy
    cases hn : encodeMedia n with
    | error e => simp [hn, bind, Except.bind] at hy
    | ok b =>
      cases hk : encodeMore k with
      | error e => simp [hn, hk, bind, Except.bind] at hy
      | ok bs =>
        simp only [hn, hk, bind, Except.bind, pure, Except.pure, Except.ok.injEq] at hy
        subst hx hy
        simp at h
  | m :: l, [], x, y, r, s, hx, hy, h => by
    simp only [encodeMore, Except.ok.injEq] at hy
    unfold encodeMore at hx
    cases hm : encodeMedia m with
    | error e => simp [hm, bind, Except.bind] at hx
    | ok a =>
      cases hl : encodeMore l with
      | error e => simp [hm, hl, bind, Except.bind] at hx
      | ok as =>
        simp only [hm, hl, bind, Except.bind, pure, Except.pure, Except.ok.injEq] at hx
        subst hx hy
        simp at h
  | m :: l, n :: k, x, y, r, s, hx, hy, h => by
    unfold encodeMore at hx hy
    cases hm : encodeMedia m with
    | error e => simp [hm, bind, Except.bind] at hx
    | ok a =>
      cases hl : encodeMore l with
      | error e => simp [hm, hl, bind, Except.bind] at hx
      | ok as =>
        cases hn : encodeMedia n with
        | error e => simp [hn, bind, Except.bind] at hy
        | ok b =>
          cases hk : encodeMore k with
          | error e => simp [hn, hk, bind, Except.bind] at hy
          | ok bs =>
            simp only [hm, hl, hn, hk, bind, Except.bind, pure, Except.pure,
              Except.ok.injEq] at hx hy
            subst hx hy
            simp only [List.cons_append, List.append_assoc, List.cons.injEq, true_and] at h
            obtain ⟨hmn, h1⟩ := encodeMedia_unique m n a b _ _ hm hn h
            obtain ⟨hlk, h2⟩ := encodeMore_unique l k as bs r s hl hk h1
            exact ⟨by rw [List.map_cons, List.map_cons, hmn, hlk], h2⟩

theorem encodeMedia_head (m : Media) (x : List Char) (h : encodeMedia m = .ok x) :
    ∃ l, x = '{' :: l := by
  obtain ⟨a, _, rfl⟩ := encodeMedia_ok m x h
  exact ⟨_, rfl⟩

/-- What the serialisation shows of a slice of `Media`, and whether the slice is nil,
can be read back from the front of a JSON text. -/
theorem encodeItems_unique (l k : Slice Media) (x y r s : List Char)
    (hx : encodeItems l = .ok x) (hy : encodeItems k = .ok y) (h : x ++ r = y ++ s) :
    l.map (List.map Media.runes) = k.map (List.map Media.runes) ∧ r = s := by
  have cons : ∀ (m : Media) (ms : List Media) (z : List Char),
      encodeItems (some (m :: ms)) = .ok z →
      ∃ a as, encodeMedia m = .ok a ∧ encodeMore ms = .ok as ∧ z = '[' :: (a ++ as) := by
    intro m ms z hz
    unfold encodeItems at hz
    cases hm : encodeMedia m with
    | error e => simp [hm, bind, Except.bind] at hz
    | ok a =>
      cases hl : encodeMore ms with
      | error e => simp [hm, hl, bind, Except.bind] at hz
      | ok as =>
        simp only [hm, hl, bind, Except.bind, pure, Except.pure, Except.ok.injEq] at hz
        exact ⟨a, as, rfl, rfl, hz.symm⟩
  have shape : ∀ (l : Slice Media) (x : List Char), encodeItems l = .ok x →
      (l = none ∧ x = "null".data) ∨ (∃ ms t, l = some ms ∧ x = '[' :: t) := by
    intro l x hx
    match l, hx with
    | none, hx =>
      simp only [encodeItems, Except.ok.injEq] at hx
      exact Or.inl ⟨rfl, hx.symm⟩
    | some [], hx =>
      simp only [encodeItems, Except.ok.injEq] at hx
      exact Or.inr ⟨[], _, rfl, hx.symm⟩
    | some (m :: ms), hx =>
      obtain ⟨a, as, _, _, hz⟩ := cons m ms x hx
      exact Or.inr ⟨m :: ms, _, rfl, hz⟩
  match l, k, hx, hy with
  | none, none, hx, hy =>
    simp only [encodeItems, Except.ok.injEq] at hx hy
    subst hx hy
    exact ⟨rfl, List.append_cancel_left h⟩
  | none, some ks, hx, hy =>
    simp only [encodeItems, Except.ok.injEq] at hx
    rcases shape _ _ hy with ⟨hk, _⟩ | ⟨ms, t, _, ht⟩
    · cases hk
    · subst hx ht
      simp at h
  | some ls, none, hx, hy =>
    simp only [encodeItems, Except.ok.injEq] at hy
    rcases shape _ _ hx with ⟨hl, _⟩ | ⟨ms, t, _, ht⟩
    · cases hl
    · subst hy ht
      simp at h
  | some [], some [], hx, hy =>
    simp only [encodeItems, Except.ok.injEq] at hx hy
    subst hx hy
    exact ⟨rfl, by simpa using h⟩
  | some [], some (n :: k), hx, hy =>
    simp only [encodeItems, Except.ok.injEq] at hx
    obtain ⟨b, bs, hb, _, rfl⟩ := cons n k y hy
    obtain ⟨t, rfl⟩ := encodeMedia_head n b hb
    subst hx
    simp at h
  | some (m :: l), some [], hx, hy =>
    simp only [encodeItems, Except.ok.injEq] at hy
    obtain ⟨a, as, ha, _, rfl⟩ := cons m l x hx
    obtain ⟨t, rfl⟩ := encodeMedia_head m a ha
    subst hy
    simp at h
  | some (m :: l), some (n :: k), hx, hy =>
    obtain ⟨a, as, ha, has, rfl⟩ := cons m l x hx
    obtain ⟨b, bs, hb, hbs, rfl⟩ := cons n k y hy
    simp only [List.cons_append, List.append_assoc, List.cons.injEq, true_and] at h
    obtain ⟨hmn, h1⟩ := encodeMedia_unique m n a b _ _ ha hb h
    obtain ⟨hlk, h2⟩ := encodeMore_unique l k as bs r s has hbs h1
    exact ⟨by simp only [Option.map_some', List.map_cons, hmn, hlk], h2⟩

theorem Marshal_ok (p : Playlist) (data : String) (h : Marshal p = .ok data) :
    ∃ model items, encodeModel p.toModel = .ok model ∧ encodeItems p.Items = .ok items ∧
      data.data = '{' :: (model ++ (",\"Name\":".data ++ (encodeString p.Name ++
        (",\"Items\":".data ++ (items ++ (",\"ScreenID\":".data ++
        (encodeUint p.ScreenID ++ ['}']))))))) := by
  unfold Marshal at h
  cases hm : encodeModel p.toModel with
  | error e => simp [hm, bind, Except.bind] at h
  | ok model =>
    cases hi : encodeItems p.Items with
    | error e => simp [hm, hi, bind, Except.bind] at h
    | ok items =>
      simp only [hm, hi, bind, Except.bind, pure, Except.pure, Except.ok.injEq] at h
      exact ⟨model, items, rfl, rfl, by simp [← h]⟩

/-- What the serialisation shows: two playlists with the same JSON text agree in
every field, the strings read as runes. -/
theorem Marshal_runes (p q : Playlist) (data : String)
    (hp : Marshal p = .ok data) (hq : Marshal q = .ok data) : p.runes = q.runes := by
  obtain ⟨a, as, ha, has, hx⟩ := Marshal_ok p data hp
  obtain ⟨b, bs, hb, hbs, hy⟩ := Marshal_ok q data hq
  have h := hx.symm.trans hy
  simp only [List.cons.injEq, true_and] at h
  obtain ⟨hmodel, h1⟩ := encodeModel_unique _ _ _ _ _ _ ha hb h
  simp only [List.cons_append, List.nil_append, List.append_assoc, List.cons.injEq, true_and] at h1
  obtain ⟨hname, h3⟩ := encodeString_unique _ _ _ _ h1
  simp only [List.cons_append, List.nil_append, List.append_assoc, List.cons.injEq, true_and] at h3
  obtain ⟨hitems, h5⟩ := encodeItems_unique _ _ _ _ _ _ has hbs h3
  simp only [List.cons_append, List.nil_append, List.append_assoc, List.cons.injEq, true_and] at h5
  obtain ⟨hsid, _⟩ := encodeUint_unique _ _ _ _ (by simp) (by simp) h5
  simp only [Playlist.runes, hmodel, hname, hitems, hsid]

end json

/-! ## The session handler -/

theorem HandlePlaylistUpdate_frame (env : Env) (n : Nat) (clientID : String) (conn : Conn)
    (s : Server) :
    (HandlePlaylistUpdate env n clientID conn s).closed = s.closed ∧
    (HandlePlaylistUpdate env n clientID conn s).cm.Connections = s.cm.Connections ∧
    (HandlePlaylistUpdate env n clientID conn s).cm.Mutex = s.cm.Mutex := by
  unfold HandlePlaylistUpdate
  cases env.First n clientID with
  | error e => exact ⟨rfl, rfl, rfl⟩
  | ok playlist =>
    simp only
    split_ifs
    · exact ⟨rfl, rfl, rfl⟩
    · cases json.Marshal playlist <;> exact ⟨rfl, rfl, rfl⟩

theorem HandleClient.loop_succ (env : Env) (clientID : String) (conn : Conn) :
    ∀ (periods n : Nat) (s : Server),
      HandleClient.loop env clientID conn (periods + 1) n s =
        HandlePlaylistUpdate env (n + periods) clientID conn
          (HandleClient.loop env clientID conn periods n s)
  | 0, n, s => rfl
  | periods + 1, n, s => by
    rw [HandleClient.loop, HandleClient.loop_succ env clientID conn periods (n + 1)]
    rw [show n + 1 + periods = n + (periods + 1) by omega]
    rfl

theorem HandleClient.loop_frame (env : Env) (clientID : String) (conn : Conn) :
    ∀ (periods n : Nat) (s : Server),
      (HandleClient.loop env clientID conn periods n s).closed = s.closed ∧
      (HandleClient.loop env clientID conn periods n s).cm.Connections = s.cm.Connections ∧
      (HandleClient.loop env clientID conn periods n s).cm.Mutex = s.cm.Mutex
  | 0, _, _ => ⟨rfl, rfl, rfl⟩
  | periods + 1, n, s => by
    obtain ⟨h1, h2, h3⟩ := HandleClient.loop_frame env clientID conn periods (n + 1)
      (HandlePlaylistUpdate env n clientID conn s)
    obtain ⟨g1, g2, g3⟩ := HandlePlaylistUpdate_frame env n clientID conn s
    exact ⟨h1.trans g1, h2.trans g2, h3.trans g3⟩

theorem RemoveConnection_eq_erase (cm : ClientManager) (c : Conn) (hfree : cm.Mutex = false) :
    cm.RemoveConnection c = .returned { cm with Connections := cm.Connections.erase c } := by
  by_cases h : c ∈ cm.Connections
  · obtain ⟨pre, post, hpre, hsplit, herase⟩ := List.exists_erase_eq h
    rw [RemoveConnection_present cm c pre post hfree hsplit hpre, herase]
  · rw [RemoveConnection_absent cm c hfree h, List.erase_of_not_mem h]

/-- A rejected handshake on a manager whose mutex is free: the handler returns, the
connection has been closed once more, the first entry for it is gone from the
registry and the version records are as before. -/
theorem HandleClient_rejects_of_free (env : Env) (conn : Conn) (periods : Nat) (s : Server)
    (buf : String) (hread : env.Read conn = .ok buf)
    (hbad : isValidClientID (TrimSpace buf) = false) (hfree : s.cm.Mutex = false) :
    ∃ s', HandleClient env conn periods s = .returned s' ∧
      s'.closed = s.closed ++ [conn] ∧
      s'.cm.Connections = s.cm.Connections.erase conn ∧
      (s.cm.Connections.Nodup → conn ∉ s'.cm.Connections) ∧
      s'.cm.PlaylistVersions = s.cm.PlaylistVersions := by
  unfold HandleClient
  simp only [hread, hbad, Bool.not_false, if_true, HandleClient.deferred,
    RemoveConnection_eq_erase s.cm conn hfree]
  exact ⟨_, rfl, rfl, rfl, fun hnd hmem => (hnd.mem_erase_iff.1 hmem).1 rfl, rfl⟩

/-- A rejected handshake on a manager whose mutex is held: the handler is parked in
the `Lock` of `RemoveConnection`, and nothing has been closed or removed. -/
theorem HandleClient_parked_of_held (env : Env) (conn : Conn) (periods : Nat) (s : Server)
    (buf : String) (hread : env.Read conn = .ok buf)
    (hbad : isValidClientID (TrimSpace buf) = false) (hheld : s.cm.Mutex = true) :
    HandleClient env conn periods s = .blocked s := by
  unfold HandleClient
  simp [hread, hbad, HandleClient.deferred, ClientManager.RemoveConnection, hheld]

/-- C5, on the code.  `Listen` registers connections 5 and 6.  Connection 5 sends the
identifier `1`; its handler takes the mutex and enters its loop, where the deferred
unlock never runs.  Connection 6 then sends white space only, which trims to the empty
identifier; its handler is rejected and parks in the `Lock` of `RemoveConnection`: it
does not return, connection 6 is never closed and it stays in `Connections`. -/
theorem HandleClient_rejection_never_closes :
    (∃ cm, NewManager.AddConnection 5 = .returned (cm, 5) ∧
      cm.AddConnection 6 = .returned (Sample.accepted.cm, 6)) ∧
    HandleClient Sample.envTwo 5 0 Sample.accepted = .looping Sample.held ∧
    Sample.held.cm.Mutex = true ∧
    Sample.envTwo.Read 6 = .ok " \r\n" ∧ TrimSpace " \r\n" = "" ∧
    HandleClient Sample.envTwo 6 0 Sample.held = .blocked Sample.held ∧
    Sample.held.closed = [] ∧ 6 ∈ Sample.held.cm.Connections := by
  refine ⟨⟨_, rfl, rfl⟩, rfl, rfl, rfl, by decide, rfl, rfl, by decide⟩

theorem HandleClient.deferred_cases (conn : Conn) (s : Server) :
    HandleClient.deferred conn s = .blocked s ∨
      ∃ s', HandleClient.deferred conn s = .returned s' ∧ s'.written = s.written := by
  unfold HandleClient.deferred
  by_cases hheld : s.cm.Mutex = true
  · left
    simp [ClientManager.RemoveConnection, hheld]
  · right
    rw [RemoveConnection_eq_erase s.cm conn (by simpa using hheld)]
    exact ⟨_, rfl, rfl⟩

/-- C7, amended.  However `HandleClient` has fared after any number of periods: if it
has returned (a failed read or a rejected identifier), the session has made no push
write; if it is parked at a `Lock`, the state is as it found it, again without a
push write; and if it is in its loop, which is the only way for a push write of the
session to have been made or to have failed, then whatever the writes answered it has
closed nothing and removed nothing from `Connections`, it is in its loop again one
period later, having run the next update cycle, and that cycle writes to the
connection when the fetched playlist hashes differently from the stored hash and
serialises. -/
theorem HandleClient_stays_active (env : Env) (conn : Conn) (periods : Nat) (s : Server) :
    (∀ s', HandleClient env conn periods s = .returned s' → s'.written = s.written) ∧
    (∀ s', HandleClient env conn periods s = .blocked s' → s' = s) ∧
    (∀ s', HandleClient env conn periods s = .looping s' →
      s'.closed = s.closed ∧ s'.cm.Connections = s.cm.Connections ∧
      ∃ buf, env.Read conn = .ok buf ∧
        HandleClient env conn (periods + 1) s =
          .looping (HandlePlaylistUpdate env periods (TrimSpace buf) conn s') ∧
        ∀ playlist data, env.First periods (TrimSpace buf) = .ok playlist →
          calculateHash playlist ≠ (s'.cm.version (TrimSpace buf)).VersionHash →
          json.Marshal playlist = .ok data →
          (HandlePlaylistUpdate env periods (TrimSpace buf) conn s').written =
            s'.written ++ [⟨conn, data ++ "\n", env.WriteFails periods conn⟩]) := by
  have rejected : ∀ r : Run Server, r = HandleClient.deferred conn s →
      (∀ s', r = .returned s' → s'.written = s.written) ∧
      (∀ s', r = .blocked s' → s' = s) ∧ (∀ s', r ≠ .looping s') := by
    intro r hr
    rcases HandleClient.deferred_cases conn s with h | ⟨t, h, ht⟩
    · rw [hr, h]
      exact ⟨fun _ e => (by cases e), fun _ e => (by cases e; rfl), fun _ e => (by cases e)⟩
    · rw [hr, h]
      exact ⟨fun _ e => (by cases e; exact ht), fun _ e => (by cases e), fun _ e => (by cases e)⟩
  cases hread : env.Read conn with
  | error err =>
    have hrun : HandleClient env conn periods s = HandleClient.deferred conn s := by
      unfold HandleClient
      simp only [hread]
    obtain ⟨h1, h2, h3⟩ := rejected _ hrun
    exact ⟨h1, h2, fun s' e => absurd e (h3 s')⟩
  | ok buf =>
    by_cases hvalid : isValidClientID (TrimSpace buf) = true
    · by_cases hheld : s.cm.Mutex = true
      · have hrun : HandleClient env conn periods s = .blocked s := by
          unfold HandleClient
          simp only [hread, hvalid, hheld, Bool.not_true, Bool.false_eq_true, if_false, if_true]
        rw [hrun]
        exact ⟨fun _ e => (by cases e), fun _ e => (by cases e; rfl), fun _ e => (by cases e)⟩
      · have hfree : s.cm.Mutex = false := by simpa using hheld
        unfold HandleClient
        simp only [hread, hvalid, hfree, Bool.not_true, Bool.false_eq_true, if_false]
        refine ⟨fun _ e => (by cases e), fun _ e => (by cases e), fun s' e => ?_⟩
        cases e
        refine ⟨?_, ?_, buf, rfl, ?_, ?_⟩
        · exact (HandleClient.loop_frame env _ conn periods 0 _).1
        · exact (HandleClient.loop_frame env _ conn periods 0 _).2.1.trans
            (by split_ifs <;> rfl)
        · rw [HandleClient.loop_succ, Nat.zero_add]
        · intro playlist data hfetch hdiff hser
          rw [HandlePlaylistUpdate_of_change env periods _ conn _ playlist hfetch hdiff, hser]
    · have hrun : HandleClient env conn periods s = HandleClient.deferred conn s := by
        unfold HandleClient
        simp only [hread]
        rw [if_pos (by simpa using hvalid)]
      obtain ⟨h1, h2, h3⟩ := rejected _ hrun
      exact ⟨h1, h2, fun s' e => absurd e (h3 s')⟩

/-- Counterexample to C7.  The write of the first cycle fails; after two periods the
handler has not returned, the connection has not been closed and is still registered,
and the second cycle has written to it again. -/
theorem HandleClient_cycles_after_write_failure :
    (HandleClient Sample.envFlaky 5 2 Sample.accepted).hasReturned = false ∧
    (HandleClient Sample.envFlaky 5 2 Sample.accepted).state.closed = [] ∧
    5 ∈ (HandleClient Sample.envFlaky 5 2 Sample.accepted).state.cm.Connections ∧
    ((HandleClient Sample.envFlaky 5 2 Sample.accepted).state.written.map
      fun w => (w.conn, w.failed)) = [(5, true), (5, false)] := by
  refine ⟨rfl, by decide, by decide, by decide⟩

/-- Witness of C7, amended: the session whose first write fails, after one period. -/
theorem HandleClient_stays_active_witness :
    Sample.envFlaky.WriteFails 0 5 = true ∧
    (HandleClient Sample.envFlaky 5 1 Sample.accepted).state.closed = Sample.accepted.closed ∧
    (HandleClient Sample.envFlaky 5 1 Sample.accepted).state.cm.Connections =
      Sample.accepted.cm.Connections := by
  obtain ⟨h1, h2, _⟩ :=
    (HandleClient_stays_active Sample.envFlaky 5 1 Sample.accepted).2.2
      (HandleClient Sample.envFlaky 5 1 Sample.accepted).state rfl
  exact ⟨rfl, h1, h2⟩

/-! ## The content hash -/

theorem calculateHash_eq_digest (p : Playlist) :
    calculateHash p = String.mk (hexBytes (calculateHash.digest p).bytes) := rfl

theorem calculateHash_of_Marshal_eq (p q : Playlist) (h : json.Marshal q = json.Marshal p) :
    calculateHash q = calculateHash p := by
  unfold calculateHash
  rw [h]

/-- The zero playlist, whose `Items` is the nil slice, hashes as the code hashes
`models.Playlist{}`; with an empty slice that is not nil it hashes differently. -/
theorem calculateHash_zero :
    calculateHash Playlist.zero = "fcd37b81ac220cdaca97e61acb21d040" ∧
    calculateHash { Playlist.zero with Items := some [] } =
      "4f9f9a9933dead495c4f28b3f8827283" := by
  refine ⟨by decide, by decide⟩

theorem Media.eq_of_parts (m n : Media) (hc : m.content = n.content)
    (hm : m.metadata = n.metadata) : m = n := by
  obtain ⟨mm, a, b, c, d⟩ := m
  obtain ⟨nn, a', b', c', d'⟩ := n
  simp only [Media.content, Media.metadata, Prod.mk.injEq] at hc hm
  obtain ⟨h1, h2, h3⟩ := hc
  obtain ⟨h4, h5⟩ := hm
  subst h1 h2 h3 h4 h5
  rfl

theorem Media.list_eq_of_parts : ∀ (l k : List Media),
    l.map Media.content = k.map Media.content → l.map Media.metadata = k.map Media.metadata →
    l = k
  | [], [], _, _ => rfl
  | [], _ :: _, h, _ => by simp at h
  | _ :: _, [], h, _ => by simp at h
  | m :: l, n :: k, hc, hm => by
    simp only [List.map_cons, List.cons.injEq] at hc hm
    rw [Media.eq_of_parts m n hc.1 hm.1,
      Media.list_eq_of_parts l k hc.2 hm.2]

theorem Playlist.eq_of_content_metadata (p q : Playlist) (hc : p.content = q.content)
    (hm : p.metadata = q.metadata) : p = q := by
  obtain ⟨pm, pn, pi, ps⟩ := p
  obtain ⟨qm, qn, qi, qs⟩ := q
  simp only [Playlist.content, Playlist.metadata, Prod.mk.injEq] at hc hm
  obtain ⟨h1, h2⟩ := hc
  obtain ⟨h3, h4, h5⟩ := hm
  have h6 : pi = qi := by
    match pi, qi, h2, h5 with
    | none, none, _, _ => rfl
    | none, some _, h2, _ => simp at h2
    | some _, none, h2, _ => simp at h2
    | some l, some k, h2, h5 =>
      simp only [Option.map_some', Option.some.injEq] at h2 h5
      rw [Media.list_eq_of_parts l k h2 h5]
  subst h1 h3 h4 h6
  rfl

theorem Media.metadata_of_item_runes (m n : Media) (h : m.runes = n.runes) :
    m.metadata = n.metadata := by
  simp only [Media.runes, Prod.mk.injEq] at h
  simp only [Media.metadata, h.1, h.2.2.2.2]

theorem Media.list_metadata_of_runes : ∀ (l k : List Media),
    l.map Media.runes = k.map Media.runes → l.map Media.metadata = k.map Media.metadata
  | [], [], _ => rfl
  | [], _ :: _, h => by simp at h
  | _ :: _, [], h => by simp at h
  | m :: l, n :: k, h => by
    simp only [List.map_cons, List.cons.injEq] at h
    rw [List.map_cons, List.map_cons, Media.metadata_of_item_runes m n h.1,
      Media.list_metadata_of_runes l k h.2]

theorem Playlist.metadata_of_runes (p q : Playlist) (h : p.runes = q.runes) :
    p.metadata = q.metadata := by
  simp only [Playlist.runes, Prod.mk.injEq] at h
  obtain ⟨h1, _, h3, h4⟩ := h
  have h5 : p.Items.map (List.map Media.metadata) = q.Items.map (List.map Media.metadata) := by
    match hp : p.Items, hq : q.Items with
    | none, none => rfl
    | none, some _ => simp [hp, hq] at h3
    | some _, none => simp [hp, hq] at h3
    | some l, some k =>
      simp only [hp, hq, Option.map_some', Option.some.injEq] at h3
      simp only [Option.map_some', Media.list_metadata_of_runes l k h3]
  simp only [Playlist.metadata, h1, h4, h5]

/-- A media item whose strings are valid UTF-8 is told apart from every other one by
what the serialisation shows. -/
theorem Media.eq_of_runes (m n : Media) (h : m.runes = n.runes)
    (hn : n.ValidStrings = true) : m = n := by
  obtain ⟨mm, a, b, c, d⟩ := m
  obtain ⟨nn, a', b', c', d'⟩ := n
  simp only [Media.runes, Prod.mk.injEq] at h
  simp only [Media.ValidStrings, Bool.and_eq_true] at hn
  obtain ⟨h1, h2, h3, h4, h5⟩ := h
  have e2 := (utf8.decode_injective_of_valid a' a h2.symm hn.1.1).symm
  have e3 := (utf8.decode_injective_of_valid b' b h3.symm hn.1.2).symm
  have e4 := (utf8.decode_injective_of_valid c' c h4.symm hn.2).symm
  subst h1 e2 e3 e4 h5
  rfl

theorem Media.list_eq_of_runes : ∀ (l k : List Media),
    l.map Media.runes = k.map Media.runes → (∀ m ∈ k, m.ValidStrings = true) → l = k
  | [], [], _, _ => rfl
  | [], _ :: _, h, _ => by simp at h
  | _ :: _, [], h, _ => by simp at h
  | m :: l, n :: k, h, hv => by
    simp only [List.map_cons, List.cons.injEq] at h
    rw [Media.eq_of_runes m n h.1 (hv n (by simp)),
      Media.list_eq_of_runes l k h.2 (fun x hx => hv x (by simp [hx]))]

/-- Two playlists with the same JSON text, one of them with valid UTF-8 in the strings
of its items, have the same items. -/
theorem json.Marshal_items (p q : Playlist) (data : String) (items : List Media)
    (hp : json.Marshal p = .ok data) (hq : json.Marshal q = .ok data)
    (hitems : p.Items = some items) (hvalid : ∀ m ∈ items, m.ValidStrings = true) :
    q.Items = some items := by
  have h := json.Marshal_runes q p data hq hp
  simp only [Playlist.runes, Prod.mk.injEq, hitems, Option.map_some'] at h
  obtain ⟨_, _, h3, _⟩ := h
  match hq' : q.Items with
  | none => simp [hq'] at h3
  | some k =>
    simp only [hq', Option.map_some', Option.some.injEq] at h3
    rw [Media.list_eq_of_runes k items h3 hvalid]

theorem hexBytes_injective : ∀ (bs cs : List Nat), (∀ b ∈ bs, b < 256) → (∀ c ∈ cs, c < 256) →
    hexBytes bs = hexBytes cs → bs = cs
  | [], [], _, _, _ => rfl
  | [], _ :: _, _, _, h => by simp [hexBytes] at h
  | _ :: _, [], _, _, h => by simp [hexBytes] at h
  | b :: bs, c :: cs, hb, hc, h => by
    simp only [hexBytes, List.flatMap_cons, List.cons_append, List.nil_append,
      List.cons.injEq] at h
    obtain ⟨h1, h2, h3⟩ := h
    have hb' := hb b (by simp)
    have hc' := hc c (by simp)
    have e1 := congrArg json.hexValue h1
    have e2 := congrArg json.hexValue h2
    rw [json.hexValue_hexDigit_lt _ (by omega), json.hexValue_hexDigit_lt _ (by omega)] at e1
    rw [json.hexValue_hexDigit_lt _ (Nat.mod_lt _ (by decide)),
      json.hexValue_hexDigit_lt _ (Nat.mod_lt _ (by decide))] at e2
    have hbc : b = c := by omega
    rw [hbc, hexBytes_injective bs cs (fun x hx => hb x (by simp [hx]))
      (fun x hx => hc x (by simp [hx])) h3]

theorem md5.Digest.bytes_lt (d : md5.Digest) : ∀ b ∈ d.bytes, b < 256 := by
  intro b hb
  simp only [md5.Digest.bytes, md5.le32, List.cons_append, List.nil_append, List.mem_cons,
    List.mem_singleton, List.not_mem_nil, or_false] at hb
  rcases hb with h | h | h | h | h | h | h | h | h | h | h | h | h | h | h | h <;>
    (rw [h]; exact Nat.mod_lt _ (by decide))

/-- Two hashes are the same exactly when the sixteen bytes of the two digests are. -/
theorem calculateHash_eq_iff (p q : Playlist) :
    calculateHash q = calculateHash p ↔
      (calculateHash.digest q).bytes = (calculateHash.digest p).bytes := by
  rw [calculateHash_eq_digest, calculateHash_eq_digest]
  constructor
  · intro h
    exact hexBytes_injective _ _ (md5.Digest.bytes_lt _) (md5.Digest.bytes_lt _)
      (congrArg String.data h)
  · intro h
    rw [h]

/-- Counterexample to C8.  Saving the seeded playlist again changes `UpdatedAt` and
nothing else; name and items are the same, and the hash is another one. -/
theorem calculateHash_changes_with_UpdatedAt :
    Sample.touched.content = Sample.playlist.content ∧
    calculateHash Sample.playlist = "40d7b1d830b8a132a786a130c88aafde" ∧
    calculateHash Sample.touched = "b41f51364f17927d7fc5fc339715f990" ∧
    calculateHash Sample.touched ≠ calculateHash Sample.playlist := by
  refine ⟨by decide, by decide, by decide, by decide⟩

/-- C8, amended.  `calculateHash` is the MD5 digest of the whole JSON text of the
playlist, storage metadata included.  For a playlist that serialises, a playlist with
the same name, the same `Items` slice (nil or not) and the same ordered item contents
(name, path, type) has the same JSON text exactly when its generated fields (the
`gorm.Model` members, `PlaylistID`, `ScreenID`) are the same as well, and then it has
the same hash. -/
theorem calculateHash_covers_metadata (p q : Playlist) (data : String)
    (hcontent : q.content = p.content) (hser : json.Marshal p = .ok data) :
    calculateHash p = String.mk (hexBytes (md5.Sum (utf8Encode data.data)).bytes) ∧
    (json.Marshal q = .ok data ↔ q.metadata = p.metadata) ∧
    (q.metadata = p.metadata → calculateHash q = calculateHash p) := by
  refine ⟨?_, ⟨fun hq => ?_, fun hm => ?_⟩, fun hm => ?_⟩
  · simp only [calculateHash, hser]
  · exact Playlist.metadata_of_runes q p (json.Marshal_runes q p data hq hser)
  · rw [Playlist.eq_of_content_metadata q p hcontent hm, hser]
  · rw [Playlist.eq_of_content_metadata q p hcontent hm]

/-- C9, amended.  The hash is the digest of the JSON text: every playlist with the same
text as `p` hashes as `p` does, and two hashes differ exactly when the bytes of the
two digests differ.  For a playlist that serialises and whose items have valid UTF-8
in name, path and type, reordering the items into a different sequence changes the
text that is hashed, and so does changing the name, path or type of any one item. -/
theorem calculateHash_of_serialisation (p : Playlist) (items : List Media) (data : String)
    (hitems : p.Items = some items) (hser : json.Marshal p = .ok data)
    (hvalid : ∀ m ∈ items, m.ValidStrings = true) :
    (∀ q, json.Marshal q = .ok data → calculateHash q = calculateHash p) ∧
    (∀ q, calculateHash q = calculateHash p ↔
      (calculateHash.digest q).bytes = (calculateHash.digest p).bytes) ∧
    (∀ reordered, reordered.Perm items → reordered ≠ items →
      json.Marshal { p with Items := some reordered } ≠ .ok data) ∧
    (∀ (i : Nat) (m : Media) (hi : i < items.length),
      m.content ≠ (items.get ⟨i, hi⟩).content →
      json.Marshal { p with Items := some (items.set i m) } ≠ .ok data) := by
  refine ⟨fun q hq => calculateHash_of_Marshal_eq p q (hq.trans hser.symm),
    fun q => calculateHash_eq_iff p q, fun reordered _ hne hq => ?_, fun i m hi hne hq => ?_⟩
  · have h := json.Marshal_items p _ data items hser hq hitems hvalid
    exact hne (Option.some.inj h)
  · have h := json.Marshal_items p _ data items hser hq hitems hvalid
    have hset : items.set i m = items := Option.some.inj h
    have hget : (items.set i m)[i]? = items[i]? := by rw [hset]
    rw [List.getElem?_set_self hi, List.getElem?_eq_getElem hi, Option.some.injEq] at hget
    exact hne (by rw [hget]; rfl)

theorem md5.le32_mod (n : Nat) : md5.le32 (n % md5.W) = md5.le32 n := by
  simp only [md5.le32, md5.W, List.cons.injEq, and_true]
  omega

theorem md5.Digest.bytes_congr (d e : md5.Digest) (ha : d.a % md5.W = e.a % md5.W)
    (hb : d.b % md5.W = e.b % md5.W) (hc : d.c % md5.W = e.c % md5.W)
    (hd : d.d % md5.W = e.d % md5.W) : d.bytes = e.bytes := by
  unfold md5.Digest.bytes
  rw [← md5.le32_mod d.a, ← md5.le32_mod d.b, ← md5.le32_mod d.c, ← md5.le32_mod d.d,
    ha, hb, hc, hd, md5.le32_mod, md5.le32_mod, md5.le32_mod, md5.le32_mod]

/-- A digest has 128 bits: among the playlists that hold the seeded image under the
names `a`, `aa`, ... there are two with the same hash. -/
theorem calculateHash_collision_exists :
    ∃ x y : Nat, x ≠ y ∧
      calculateHash (Sample.withItems [Sample.renamed x]) =
        calculateHash (Sample.withItems [Sample.renamed y]) := by
  have hW : 0 < md5.W := by decide
  let P : Nat → Playlist := fun n => Sample.withItems [Sample.renamed n]
  let f : Nat → Fin md5.W × Fin md5.W × Fin md5.W × Fin md5.W := fun n =>
    (⟨(calculateHash.digest (P n)).a % md5.W, Nat.mod_lt _ hW⟩,
     ⟨(calculateHash.digest (P n)).b % md5.W, Nat.mod_lt _ hW⟩,
     ⟨(calculateHash.digest (P n)).c % md5.W, Nat.mod_lt _ hW⟩,
     ⟨(calculateHash.digest (P n)).d % md5.W, Nat.mod_lt _ hW⟩)
  obtain ⟨x, y, hxy, hf⟩ := Finite.exists_ne_map_eq_of_infinite f
  simp only [f, Prod.mk.injEq, Fin.mk.injEq] at hf
  obtain ⟨ha, hb, hc, hd⟩ := hf
  refine ⟨x, y, hxy, ?_⟩
  show calculateHash (P x) = calculateHash (P y)
  rw [calculateHash_eq_digest, calculateHash_eq_digest,
    md5.Digest.bytes_congr _ _ ha hb hc hd]

/-- Counterexample to C9.  Two rows with the same name and the same items in the same
order hash differently.  The names `Café` and `Cafè`, stored in Latin-1, differ in a
byte that is not valid UTF-8, and the serialisation writes both as `Caf\ufffd`:
changing the name of an item from one to the other leaves the hash as it is, and so
does changing its path, or its type; and a playlist of two items that differ in this
name only hashes the same in either order.  A playlist that does not serialise hashes
as the empty byte string does, in whatever order its items are. -/
theorem calculateHash_neither_determined_nor_sensitive :
    (Sample.copy.Name = Sample.playlist.Name ∧ Sample.copy.Items = Sample.playlist.Items ∧
      calculateHash Sample.copy ≠ calculateHash Sample.playlist) ∧
    Sample.cafe ≠ Sample.cafeGrave ∧
    (calculateHash (Sample.withItems [{ Sample.image with Name := Sample.cafe }]) =
        "0b832ad76601f08d106c1daf46853d7a" ∧
      calculateHash (Sample.withItems [{ Sample.image with Name := Sample.cafeGrave }]) =
        "0b832ad76601f08d106c1daf46853d7a") ∧
    (calculateHash (Sample.withItems [{ Sample.image with Path := Sample.cafe }]) =
        "7c90120bfa74d75ccea732a2ca76a439" ∧
      calculateHash (Sample.withItems [{ Sample.image with Path := Sample.cafeGrave }]) =
        "7c90120bfa74d75ccea732a2ca76a439") ∧
    (calculateHash (Sample.withItems [{ Sample.image with Type_ := Sample.cafe }]) =
        "df037f873d3b4d18bfda777aa8c75107" ∧
      calculateHash (Sample.withItems [{ Sample.image with Type_ := Sample.cafeGrave }]) =
        "df037f873d3b4d18bfda777aa8c75107") ∧
    (([{ Sample.image with Name := Sample.cafeGrave }, { Sample.image with Name := Sample.cafe }] :
        List Media) ≠
        [{ Sample.image with Name := Sample.cafe }, { Sample.image with Name := Sample.cafeGrave }] ∧
      calculateHash (Sample.withItems
          [{ Sample.image with Name := Sample.cafe },
            { Sample.image with Name := Sample.cafeGrave }]) =
        "1cf3a6c6fde711d5c331d0e798fca775" ∧
      calculateHash (Sample.withItems
          [{ Sample.image with Name := Sample.cafeGrave },
            { Sample.image with Name := Sample.cafe }]) =
        "1cf3a6c6fde711d5c331d0e798fca775") ∧
    (calculateHash Sample.undated = "d41d8cd98f00b204e9800998ecf8427e" ∧
      calculateHash { Sample.undated with Items := some [Sample.video, Sample.image] } =
        "d41d8cd98f00b204e9800998ecf8427e") := by
  refine ⟨⟨rfl, rfl, by decide⟩, by decide, ⟨by decide, by decide⟩, ⟨by decide, by decide⟩,
    ⟨by decide, by decide⟩, ⟨by decide, by decide, by decide⟩, ⟨by decide, by decide⟩⟩

/-- Witness of C8, amended: the seeded playlist and the one saved again. -/
theorem calculateHash_covers_metadata_witness :
    Sample.touched.content = Sample.playlist.content ∧
    json.Marshal Sample.playlist = .ok Sample.wire ∧
    json.Marshal Sample.touched ≠ .ok Sample.wire :=
  ⟨by decide, by rfl, fun h =>
    absurd ((calculateHash_covers_metadata Sample.playlist Sample.touched Sample.wire
      (by decide) (by rfl)).2.1.1 h) (by decide)⟩

/-- Witness of C9, amended: the seeded playlist with its two items swapped. -/
theorem calculateHash_of_serialisation_witness :
    json.Marshal Sample.playlist = .ok Sample.wire ∧
    (∀ m ∈ [Sample.image, Sample.video], m.ValidStrings = true) ∧
    json.Marshal Sample.reordered ≠ .ok Sample.wire :=
  ⟨by rfl, by decide, (calculateHash_of_serialisation Sample.playlist
    [Sample.image, Sample.video] Sample.wire rfl (by rfl) (by decide)).2.2.1
    [Sample.video, Sample.image] (List.Perm.swap _ _ _) (by decide)⟩

/-! ## The acceptor and the lock -/

theorem AddConnection_blocked_of_held (cm : ClientManager) (conn : Conn)
    (hheld : cm.Mutex = true) : cm.AddConnection conn = .blocked (cm, conn) := by
  simp [ClientManager.AddConnection, hheld]

theorem RemoveConnection_blocked_of_held (cm : ClientManager) (conn : Conn)
    (hheld : cm.Mutex = true) : cm.RemoveConnection conn = .blocked cm := by
  simp [ClientManager.RemoveConnection, hheld]

theorem Listen_blocked_of_held (cm : ClientManager) (conn : Conn)
    (rest : List (Except String Conn)) (hheld : cm.Mutex = true) :
    Listen (.ok conn :: rest) cm = .blocked cm := by
  simp [Listen, AddConnection_blocked_of_held cm conn hheld]

/-- While the mutex is free the accept loop registers every accepted connection and
goes on: it is not held up by handlers that have not yet taken the lock. -/
theorem Listen_registers_of_free : ∀ (events : List (Except String Conn)) (cm : ClientManager),
    cm.Mutex = false →
    Listen events cm = .looping { cm with
      Connections := cm.Connections ++ events.filterMap fun e =>
        match e with
        | .ok conn => some conn
        | .error _ => none }
  | [], cm, _ => by simp [Listen]
  | .error _ :: rest, cm, hfree => by
    rw [Listen, Listen_registers_of_free rest cm hfree]
    simp
  | .ok conn :: rest, cm, hfree => by
    obtain ⟨m, l, v⟩ := cm
    simp only at hfree
    subst hfree
    simp only [Listen, ClientManager.AddConnection, Bool.false_eq_true, if_false]
    rw [Listen_registers_of_free rest _ rfl]
    simp

/-- After a valid handshake the handler holds the mutex for as long as it runs: it is
held before the first update cycle and after any number of periods. -/
theorem HandleClient_holds_mutex (env : Env) (conn : Conn) (periods : Nat) (s : Server)
    (buf : String) (hread : env.Read conn = .ok buf)
    (hvalid : isValidClientID (TrimSpace buf) = true) (hfree : s.cm.Mutex = false) :
    (HandleClient env conn periods s).hasReturned = false ∧
    (HandleClient env conn periods s).state.cm.Mutex = true := by
  unfold HandleClient
  simp only [hread, hvalid, hfree, Bool.not_true, Bool.false_eq_true, if_false]
  refine ⟨rfl, ?_⟩
  exact (HandleClient.loop_frame env _ conn periods 0 _).2.2.trans (by split_ifs <;> rfl)

/-- C11, on the code.  Connections 5 and 6 are registered and connection 5 sends the
identifier `1`.  Its session holds the mutex when the version record has been made
sure of, before the first update cycle, and after every number of periods.  So at
every moment of that session `AddConnection` and `RemoveConnection` for any other
connection are parked in `Lock`, and the accept loop, which calls `AddConnection`
for the next accepted connection, is parked with them. -/
theorem Listen_blocked_by_active_session :
    Listen [.ok 5, .ok 6] NewManager = .looping Sample.accepted.cm ∧
    HandleClient Sample.envTwo 5 0 Sample.accepted = .looping Sample.held ∧
    Sample.held.cm.Mutex = true ∧
    ∀ (periods : Nat) (conn : Conn),
      (HandleClient Sample.envTwo 5 periods Sample.accepted).hasReturned = false ∧
      (HandleClient Sample.envTwo 5 periods Sample.accepted).state.cm.Mutex = true ∧
      (HandleClient Sample.envTwo 5 periods Sample.accepted).state.cm.AddConnection conn =
        .blocked ((HandleClient Sample.envTwo 5 periods Sample.accepted).state.cm, conn) ∧
      (HandleClient Sample.envTwo 5 periods Sample.accepted).state.cm.RemoveConnection conn =
        .blocked (HandleClient Sample.envTwo 5 periods Sample.accepted).state.cm ∧
      Listen [.ok conn] (HandleClient Sample.envTwo 5 periods Sample.accepted).state.cm =
        .blocked (HandleClient Sample.envTwo 5 periods Sample.accepted).state.cm := by
  refine ⟨rfl, rfl, rfl, fun periods conn => ?_⟩
  obtain ⟨hrun, hheld⟩ :=
    HandleClient_holds_mutex Sample.envTwo 5 periods Sample.accepted "1\n" rfl (by decide) rfl
  exact ⟨hrun, hheld, AddConnection_blocked_of_held _ conn hheld,
    RemoveConnection_blocked_of_held _ conn hheld, Listen_blocked_of_held _ conn [] hheld⟩
